import Mathlib

/-!
Verification of the psync tree-diff and rename-resolution engine.

This file gives a shallow embedding, in Lean 4, of the parts of the psync
source that the specification's claims are about:

* `psync/dual_walk.py` — relative paths (`_Relpath`), file metadata
  (`_Metadata`), the per-directory diff (`_Diff`, `_DualWalk.dir_diff`),
  the rename map (`_Diff.get_file_rename_map`) and the rename chains
  (`_Diff.get_file_rename_chains`);
* `psync/helpers.py` — `_reverse_dict`;
* `psync/operations.py` — the `Operation` dataclasses and `_OperationFactory`;
* `psync/filter.py` — `PathFilter` (tokenizer, pattern compilation including
  implicit ancestor rules and relative `./` patterns, and first-match
  filtering);
* `psync/core.py` — the flat `_operations` scheduler used by `sync()`.

Python dicts are embedded as insertion-ordered association lists, Python
sets used for membership as lists, sizes as `Int`, and modification times
as `ℚ` (the code only ever compares mtimes, never computes with them).
Paths are represented by their list of components (the code stores the
joined string and re-splits it on the separator; components never contain
the separator, so the two representations are in bijection).  Case folding
(`str.lower`, applied when the destination system is "nt") is modelled on
ASCII by `Char.toLower`.
-/

namespace Psync

/-- Python `str.lower`, restricted to ASCII (all inputs in this development
are ASCII). Used by `_Relpath.__post_init__` when `dst_sys == "nt"`. -/
def strLower (s : String) : String := ⟨s.data.map Char.toLower⟩

/-- `_Relpath` (dual_walk.py): a relative path, stored as its list of
components (`relpath.split(sep)`); `__eq__` compares the joined string,
which for separator-free components is the same as comparing the lists. -/
structure Relpath where
  parts : List String
deriving DecidableEq, Repr

namespace Relpath

/-- `_Relpath.norm`: the components, case-folded when the destination
system is Windows (`fold = true` models `dst_sys == "nt"`). -/
def norm (fold : Bool) (p : Relpath) : List String :=
  if fold then p.parts.map strLower else p.parts

/-- `_Relpath.name`: the last real (non-folded) component. -/
def name (p : Relpath) : String := p.parts.getLastD ""

/-- `_Relpath.normed_name`: the last normalized component. -/
def normedName (fold : Bool) (p : Relpath) : String := (p.norm fold).getLastD ""

/-- `_Relpath.parent`: drop the last component; `None` for a single-component
path. -/
def parent (p : Relpath) : Option Relpath :=
  if p.parts.length ≤ 1 then none else some ⟨p.parts.dropLast⟩

/-- `_Relpath.__add__` with a separator-free suffix such as `".tempmove"`:
appending to the joined string and re-splitting appends to the last
component. -/
def addSuffix (p : Relpath) (suf : String) : Relpath :=
  ⟨p.parts.dropLast ++ [p.parts.getLastD "" ++ suf]⟩

/-- `all(a==b for a,b in zip(x, y))`: the two lists agree on their common
prefix (zip truncates to the shorter list). -/
def zipAllEq (a b : List String) : Bool :=
  (a.zip b).all fun q => q.1 == q.2

/-- `_Relpath.is_relative_to` (dual_walk.py): true when `other` is the root
`"."`, or when the norms agree on the common prefix and `self` is at least
as deep. -/
def isRelativeTo (fold : Bool) (p other : Relpath) : Bool :=
  if other.parts = ["."] then true
  else if zipAllEq (p.norm fold) (other.norm fold) then
    decide ((other.norm fold).length ≤ (p.norm fold).length)
  else false

end Relpath

/-- `_Metadata` (dual_walk.py): size in bytes and mtime.  mtime is a Python
float that the engine only ever compares; it is embedded as `ℚ`. -/
structure Metadata where
  size : Int
  mtime : ℚ
deriving DecidableEq, Repr

/-! ### Association lists: Python `dict` in insertion order -/

/-- Lookup in an association list (`d[k]` / `d.get(k)`). -/
def alGet [BEq α] (l : List (α × β)) (k : α) : Option β :=
  (l.find? fun kv => kv.1 == k).map Prod.snd

/-- `d[k] = v`: update in place when the key is present (keeping the
original key object and position, as Python dicts do), append otherwise. -/
def alInsert [BEq α] (l : List (α × β)) (k : α) (v : β) : List (α × β) :=
  if l.any (fun kv => kv.1 == k) then
    l.map fun kv => if kv.1 == k then (kv.1, v) else kv
  else l ++ [(k, v)]

/-- `del d[k]`, ignoring a missing key (the `try/except KeyError: pass`
pattern): remove the first entry with this key. -/
def alErase [BEq α] (l : List (α × β)) (k : α) : List (α × β) :=
  l.eraseP fun kv => kv.1 == k

/-- One step of `_reverse_dict` (helpers.py): `reversed[val] = None` when
`val` is already a key, `reversed[val] = key` otherwise. -/
def revInsert [BEq β] (acc : List (β × Option α)) (k : α) (v : β) :
    List (β × Option α) :=
  if acc.any (fun kv => kv.1 == v) then
    acc.map fun kv => if kv.1 == v then (kv.1, none) else kv
  else acc ++ [(v, some k)]

/-- `_reverse_dict` (helpers.py): swap keys and values; a value occurring
more than once maps to `None`. -/
def reverseDict [BEq β] (l : List (α × β)) : List (β × Option α) :=
  l.foldl (fun acc kv => revInsert acc kv.1 kv.2) []

/-! ### `_Diff.get_file_rename_map` (dual_walk.py lines 169–205) -/

/-- The configuration knobs consulted by the rename map and chains:
`dst_sys == "nt"` (case folding), `config.rename_threshold`,
`config.metadata_only`, and the trailing-1KiB comparison
`_last_bytes(src/s) == _last_bytes(dst/d)` abstracted as a boolean
function (`false` also covers the `OSError` branch, which skips the
candidate). -/
structure RenameCfg where
  fold : Bool
  renameThreshold : Int
  metadataOnly : Bool
  lastBytesEq : Relpath → Relpath → Bool

/-- The fields of `_Diff` consulted by the file rename map and chains. -/
structure DiffData where
  srcMeta : List (Relpath × Metadata)
  dstMeta : List (Relpath × Metadata)
  srcOnlyFiles : List Relpath
  dstOnlyFiles : List Relpath
  srcOnlyDirs : List Relpath
  fileMatches : List (Relpath × Relpath)
  ignoredSrc : List Relpath
  ignoredDst : List Relpath

/-- Lexicographic `≤` on component lists, the Python `<` on tuples of
strings used by `sorted(..., key=lambda x: x.norm)`. -/
def normLe : List String → List String → Bool
  | [], _ => true
  | _ :: _, [] => false
  | x :: xs, y :: ys => if x == y then normLe xs ys else decide (x < y)

/-- Insert `x` after every element that compares `≤ x`. -/
def insertOrdered (le : α → α → Bool) (x : α) : List α → List α
  | [] => [x]
  | y :: ys => if le y x then y :: insertOrdered le x ys else x :: y :: ys

/-- Python `sorted` for a total preorder `le`: a stable sort (Python's
sort is stable, and any two stable sorts agree, so insertion sort is an
exact model). -/
def stableSort (le : α → α → Bool) (l : List α) : List α :=
  l.foldl (fun acc x => insertOrdered le x acc) []

/-- One candidate of `get_file_rename_map`: a destination-side reversed
entry `mv` contributes the pair `(dst_file, src_file)` when its metadata
is unique on the destination side (`mv.2 = some dstFile`), at least
`rename_threshold` large, unique on the source side as well, the two
paths differ, and (unless `metadata_only`) the trailing bytes agree. -/
def renameMapStep (cfg : RenameCfg) (srcRev : List (Metadata × Option Relpath))
    (acc : List (Relpath × Relpath)) (mv : Metadata × Option Relpath) :
    List (Relpath × Relpath) :=
  match mv.2 with
  | none => acc
  | some dstFile =>
    if cfg.renameThreshold ≤ mv.1.size then
      match alGet srcRev mv.1 with
      | some (some srcFile) =>
        if srcFile = dstFile then acc
        else if !cfg.metadataOnly && !(cfg.lastBytesEq srcFile dstFile) then acc
        else acc ++ [(dstFile, srcFile)]
      | _ => acc
    else acc

/-- `_Diff.get_file_rename_map`: reverse the (non-ignored) metadata dicts
on each side, keep only metadata values that are unique within their side
and at least `rename_threshold` large, intersect by metadata equality,
drop identical paths and (unless `metadata_only`) pairs whose trailing
bytes differ, and return the map sorted by the destination norm. -/
def getFileRenameMap (cfg : RenameCfg) (d : DiffData) : List (Relpath × Relpath) :=
  let srcRev := reverseDict (d.srcMeta.filter fun kv => !(d.ignoredSrc.contains kv.1))
  let dstRev := reverseDict (d.dstMeta.filter fun kv => !(d.ignoredDst.contains kv.1))
  let pairs := dstRev.foldl (renameMapStep cfg srcRev) []
  stableSort (fun a b => normLe (a.1.norm cfg.fold) (b.1.norm cfg.fold)) pairs

/-! ### `_DualWalk.dir_diff` (dual_walk.py lines 578–750): per-entry
match resolution -/

/-- The tag distinguishing `_File` from `_Dir` entries (the code tests
`type(dst_entry) != type(match)` and `type(...) == _Dir`). -/
inductive EKind
  | file
  | dir
deriving DecidableEq, Repr

/-- A scanned entry: a `_File` or `_Dir` with its relative path. -/
structure Entry where
  kind : EKind
  path : Relpath
deriving DecidableEq, Repr

namespace Entry

def name (e : Entry) : String := e.path.name

def normedName (fold : Bool) (e : Entry) : String := e.path.normedName fold

end Entry

/-- The `weak_match` variable of `dir_diff`, which holds `None` (no weak
match seen), an entry (exactly one seen), or `False` (several seen). -/
inductive WeakState
  | unset
  | one (e : Entry)
  | multi
deriving DecidableEq, Repr

/-- The loop state of the per-destination-entry match loop. -/
structure ResolveAcc where
  strong : Option Entry
  weak : WeakState
  doRejectDst : Bool
  rejected : List Entry
deriving Repr

/-- The `for match_normalized in matches` loop of `dir_diff`: a
type-mismatched candidate (without force mode) rejects the destination
entry and breaks; an exactly-named candidate becomes the strong match
(rejecting a previously recorded weak match); a case-fold-only candidate
becomes the weak match when it is the first, and demotes the weak state
to `False` (rejecting both) when it is the second. -/
def resolveMatches (force fold : Bool) (dst : Entry) :
    List Entry → ResolveAcc → ResolveAcc
  | [], acc => acc
  | m :: ms, acc =>
    if m.kind ≠ dst.kind ∧ ¬force then
      { acc with doRejectDst := true }
    else if dst.name = m.name then
      resolveMatches force fold dst ms
        { acc with
          strong := some m
          rejected := match acc.weak with
            | .one w => acc.rejected ++ [w]
            | _ => acc.rejected }
    else if dst.normedName fold = m.normedName fold then
      let acc1 := if acc.strong.isSome then
        { acc with rejected := acc.rejected ++ [m] } else acc
      let acc2 := match acc1.weak with
        | .unset => { acc1 with weak := .one m }
        | .one w => { acc1 with rejected := acc1.rejected ++ [m, w], weak := .multi }
        | .multi => { acc1 with rejected := acc1.rejected ++ [m] }
      resolveMatches force fold dst ms acc2
    else
      resolveMatches force fold dst ms acc

/-- The collections of `dir_diff` updated while classifying destination
entries. -/
structure DirDiffState where
  srcOnlyDirs : List Relpath
  dstOnlyDirs : List Relpath
  srcOnlyFiles : List Relpath
  dstOnlyFiles : List Relpath
  dirMatches : List (Relpath × Relpath)
  fileMatches : List (Relpath × Relpath)
  ignoredSrc : List Relpath
  ignoredDst : List Relpath
deriving Repr

/-- Ordered-set insertion (`d[k] = None` on a dict used as a set). -/
def setInsert (l : List Relpath) (p : Relpath) : List Relpath :=
  if l.contains p then l else l ++ [p]

/-- The body of `for dst_normalized, matches in in_dst.items()` in
`dir_diff`: resolve the candidates, reject the destination entry (and all
its candidates) when appropriate, and record the winning match in the
collection matching the two entries' types. -/
def processDstEntry (force fold : Bool) (st : DirDiffState) (dst : Entry)
    (cands : List Entry) : DirDiffState :=
  let acc := resolveMatches force fold dst cands ⟨none, .unset, false, []⟩
  let doReject := acc.doRejectDst ||
    (match acc.weak with | .multi => acc.strong.isNone | _ => false)
  let rejected := if doReject then cands else acc.rejected
  let st1 := { st with ignoredSrc := st.ignoredSrc ++ rejected.map (·.path) }
  let st2 := if doReject then
    { st1 with ignoredDst := st1.ignoredDst ++ [dst.path] } else st1
  let finalMatch : Option Entry := match acc.strong with
    | some s => some s
    | none => match acc.weak with
      | .one w => some w
      | _ => none
  match finalMatch with
  | some fm =>
    if fm.kind = .dir ∧ dst.kind = .dir then
      { st2 with dirMatches := alInsert st2.dirMatches fm.path dst.path }
    else if fm.kind ≠ .dir ∧ dst.kind ≠ .dir then
      { st2 with fileMatches := alInsert st2.fileMatches fm.path dst.path }
    else if fm.kind ≠ .dir ∧ dst.kind = .dir then
      { st2 with
        srcOnlyFiles := setInsert st2.srcOnlyFiles fm.path
        dstOnlyDirs := setInsert st2.dstOnlyDirs dst.path }
    else
      { st2 with
        srcOnlyDirs := setInsert st2.srcOnlyDirs fm.path
        dstOnlyFiles := setInsert st2.dstOnlyFiles dst.path }
  | none =>
    if !doReject then
      if dst.kind = .dir then
        { st2 with dstOnlyDirs := setInsert st2.dstOnlyDirs dst.path }
      else
        { st2 with dstOnlyFiles := setInsert st2.dstOnlyFiles dst.path }
    else st2


/-! ### `Operation` and `_OperationFactory` (operations.py lines 149–570) -/

/-- The `Operation` subclasses of operations.py. -/
inductive OpTag
  | renameFile
  | renameDir
  | deleteFile
  | deleteDir
  | trashFile
  | trashDir
  | updateFile
  | createFile
  | createSymlink
  | createDir
deriving DecidableEq, Repr

/-- The `Operation` dataclass: `dst`, optional `src` and `target`
relpaths, and `byte_diff`.  (`CreateSymlinkOperation` later overwrites
`target` with the symlink's target string; the fields here are the ones
the `__post_init__` assertions inspect, i.e. the constructor
arguments.) -/
structure Operation where
  tag : OpTag
  dst : Relpath
  src : Option Relpath := none
  target : Option Relpath := none
  byteDiff : Int := 0
deriving DecidableEq, Repr

/-- The `__post_init__` assertions of each `Operation` subclass
(operations.py lines 209–459). -/
def postInitOk (op : Operation) : Prop :=
  match op.tag with
  | .renameFile => op.src = none ∧ op.target ≠ none
  | .renameDir => op.src = none ∧ op.target ≠ none
  | .deleteFile => op.src = none ∧ op.target = none
  | .deleteDir => op.src = none ∧ op.target = none
  | .trashFile => op.src = none ∧ op.target = none
  | .trashDir => op.src = none ∧ op.target = none
  | .updateFile => op.src ≠ none ∧ op.target = none
  | .createFile => op.src ≠ none ∧ op.target = none
  | .createSymlink => op.src ≠ none ∧ op.target = none
  | .createDir => op.src = none ∧ op.target = none

/-- `_OperationFactory.get_rename_ops`: one rename operation, file or
directory according to the entry's type. -/
def getRenameOps (dstE : Entry) (target : Relpath) : List Operation :=
  if dstE.kind ≠ .dir then
    [⟨.renameFile, dstE.path, none, some target, 0⟩]
  else
    [⟨.renameDir, dstE.path, none, some target, 0⟩]

/-- `_OperationFactory.get_delete_ops`: trash or delete according to
`config.trash`; a plain file delete reads
`diff.dst_file_metadata[dst_relpath].size` (a missing key raises
`KeyError`, modelled by `none`). -/
def getDeleteOps (trash : Bool) (dstMeta : List (Relpath × Metadata))
    (dstE : Entry) : Option (List Operation) :=
  if dstE.kind ≠ .dir then
    if trash then
      some [⟨.trashFile, dstE.path, none, none, 0⟩]
    else
      match alGet dstMeta dstE.path with
      | some md => some [⟨.deleteFile, dstE.path, none, none, -md.size⟩]
      | none => none
  else
    if trash then
      some [⟨.trashDir, dstE.path, none, none, 0⟩]
    else
      some [⟨.deleteDir, dstE.path, none, none, 0⟩]

/-- `_OperationFactory.get_update_ops` (operations.py lines 508–547): for
a matched file pair, update when the source mtime is newer (or older with
`force_update`); an emitted update is followed by a rename to the source
name when the real names differ.  Matched directories produce nothing.
Missing metadata (`KeyError`) is modelled by `none`. -/
def getUpdateOps (forceUpdate : Bool) (srcMeta dstMeta : List (Relpath × Metadata))
    (srcE dstE : Entry) : Option (List Operation) :=
  if dstE.kind ≠ .dir then
    match alGet srcMeta srcE.path, alGet dstMeta dstE.path with
    | some ms, some md =>
      let byteDiff := ms.size - md.size
      let doUpdate :=
        if md.mtime < ms.mtime then true
        else if ms.mtime < md.mtime then forceUpdate
        else false
      some (if doUpdate then
        ⟨.updateFile, dstE.path, some srcE.path, none, byteDiff⟩ ::
          (if srcE.path.name ≠ dstE.path.name then
            [⟨.renameFile, dstE.path, none, some srcE.path, 0⟩]
          else [])
      else [])
    | _, _ => none
  else some []

/-- `_OperationFactory.get_create_ops`: a symlink-copy when the source is
a symlink and symlinks are not followed, otherwise a file create reading
`diff.src_file_metadata[dst_relpath].size`; directories produce a
create-dir. -/
def getCreateOps (followSymlinks : Bool) (isSymlink : Relpath → Bool)
    (srcMeta : List (Relpath × Metadata)) (dstE : Entry) :
    Option (List Operation) :=
  if dstE.kind ≠ .dir then
    if !followSymlinks && isSymlink dstE.path then
      some [⟨.createSymlink, dstE.path, some dstE.path, none, 0⟩]
    else
      match alGet srcMeta dstE.path with
      | some ms => some [⟨.createFile, dstE.path, some dstE.path, none, ms.size⟩]
      | none => none
  else
    some [⟨.createDir, dstE.path, none, none, 0⟩]

/-! ### Properties of `_reverse_dict` -/

/-- The keys of `l` carrying the value `v`, in order. -/
def valKeys [BEq β] (l : List (α × β)) (v : β) : List α :=
  (l.filter fun kv => kv.2 == v).map Prod.fst

/-! ### `_Diff.get_file_rename_chains` (dual_walk.py lines 207–279) -/

/-- The mutable collections of `_Diff` read and updated while chains are
emitted. -/
structure ChainState where
  srcOnlyFiles : List Relpath
  dstOnlyFiles : List Relpath
  srcOnlyDirs : List Relpath
  fileMatches : List (Relpath × Relpath)
deriving Repr

/-- The inner `while True` of `get_file_rename_chains`: follow the rename
map from `first`, recording links in `chain`, until the walk leaves the
map (chain discarded — the stored links end at a path that is itself
renamed later in the iteration, hence already handled), hits a degenerate
link or a blocking destination-only file (chain discarded), reaches a
source-only file (terminal chain) or returns to `first` (cycle).  The
fuel argument only bounds the recursion; `rmap.length + 1` steps always
suffice because the walk never revisits a key other than `first`. -/
def buildChain (fold : Bool) (rmap : List (Relpath × Relpath)) (st : ChainState)
    (first : Relpath) :
    Nat → Relpath → List (Relpath × Relpath) → List Relpath →
    List (Relpath × Relpath) × Bool × List Relpath
  | 0, _, _, handled => ([], false, handled)
  | fuel + 1, rfrom, chain, handled =>
    let handled := if handled.contains rfrom then handled else handled ++ [rfrom]
    match alGet rmap rfrom with
    | none => ([], false, handled)
    | some rto =>
      let chain := alInsert chain rfrom rto
      if Relpath.zipAllEq (rfrom.norm fold) (rto.norm fold) then
        ([], false, handled)
      else if st.dstOnlyFiles.any (fun d => Relpath.isRelativeTo fold rto d) then
        ([], false, handled)
      else if st.srcOnlyFiles.contains rto then
        (chain, false, handled)
      else if rto = first then
        (chain, true, handled)
      else
        buildChain fold rmap st first fuel rto chain handled

/-- The `if chain:` emission block: a cyclic chain is opened with a rename
of the first key to its target suffixed `".tempmove"`, followed by the
remaining links in reverse insertion order, and closed by a rename from
the temporary name to the true target; a non-cyclic chain is emitted in
reverse insertion order. -/
def emitChain (chain : List (Relpath × Relpath)) (isCycle : Bool) :
    List (Relpath × Relpath) :=
  match chain with
  | [] => []
  | (k0, v0) :: rest =>
    if isCycle then
      (k0, v0.addSuffix ".tempmove") ::
        (rest.reverse ++ [(v0.addSuffix ".tempmove", v0)])
    else
      ((k0, v0) :: rest).reverse

/-- The `while True: del self.src_only_dirs[new_dir]` ancestor-removal
loop: delete the directory and its ancestors until a missing key (or the
root's absent parent) raises `KeyError`. -/
def removeDirsUp (dirs : List Relpath) : Option Relpath → List Relpath
  | none => dirs
  | some d =>
    if dirs.contains d then removeDirsUp (dirs.erase d) d.parent else dirs
termination_by o => o.elim 0 fun d => d.parts.length + 1
decreasing_by
  unfold Relpath.parent
  split
  · simp
  · next h =>
    simp only [Option.elim_some, List.length_dropLast]
    omega

/-- The `# remove renamed files from other collections` block, for one
link of an emitted chain. -/
def chainRemoval (st : ChainState) (link : Relpath × Relpath) : ChainState :=
  let st :=
    if st.srcOnlyFiles.contains link.2 then
      let st1 := { st with srcOnlyFiles := st.srcOnlyFiles.erase link.2 }
      if 1 < link.2.parts.length then
        { st1 with srcOnlyDirs := removeDirsUp st1.srcOnlyDirs link.2.parent }
      else st1
    else st
  let st := { st with fileMatches := alErase st.fileMatches link.1 }
  { st with dstOnlyFiles := st.dstOnlyFiles.erase link.1 }

/-- The outer `for rename_from in rename_map` loop of
`get_file_rename_chains`, over the key list of the rename map, threading
the handled set and the mutated `_Diff` collections. -/
def chainsLoop (fold : Bool) (rmap : List (Relpath × Relpath)) :
    List Relpath → ChainState → List Relpath →
    List (Relpath × Relpath) × ChainState
  | [], st, _ => ([], st)
  | k :: ks, st, handled =>
    if handled.contains k then chainsLoop fold rmap ks st handled
    else
      let r := buildChain fold rmap st k (rmap.length + 1) k [] handled
      let emitted := emitChain r.1 r.2.1
      let st' := if r.1.isEmpty then st else r.1.foldl chainRemoval st
      let rest := chainsLoop fold rmap ks st' r.2.2
      (emitted ++ rest.1, rest.2)

/-- `get_file_rename_chains`, factored over an explicit rename map: iterate
over the map's keys in order. -/
def fileRenameChains (fold : Bool) (rmap : List (Relpath × Relpath))
    (st : ChainState) : List (Relpath × Relpath) × ChainState :=
  chainsLoop fold rmap (rmap.map Prod.fst) st []

/-- `_Diff.get_file_rename_chains`: build the rename map, then emit the
chains. -/
def getFileRenameChains (cfg : RenameCfg) (d : DiffData) :
    List (Relpath × Relpath) × ChainState :=
  fileRenameChains cfg.fold (getFileRenameMap cfg d)
    ⟨d.srcOnlyFiles, d.dstOnlyFiles, d.srcOnlyDirs, d.fileMatches⟩

/-! ### Destination-tree occupancy model for rename sequences

A destination directory state maps each relative path to the identity of
the file currently stored there (`none` when the path is unoccupied).
`renameIntoFree` is `RenameFileOperation.perform` → `_move`
(operations.py): `_move` raises `FileExistsError` when the target exists
(the operation passes `exist_ok=False` whenever the two norms differ) and
`_replace` fails when the source is missing, so a rename only succeeds
when the source is occupied and the target is free; on success the file
identity moves from source to target. -/
def renameIntoFree (s : Relpath → Option Nat) (link : Relpath × Relpath) :
    Option (Relpath → Option Nat) :=
  match s link.1, s link.2 with
  | some v, none =>
    some fun p => if p = link.2 then some v else if p = link.1 then none else s p
  | _, _ => none

/-- Apply a sequence of renames left to right; `none` as soon as one of
them would read a missing source or overwrite an occupied target. -/
def applyRenames (links : List (Relpath × Relpath)) (s : Relpath → Option Nat) :
    Option (Relpath → Option Nat) :=
  links.foldlM renameIntoFree s

/-! ### `PathFilter` (filter.py)

The filter is modelled for the POSIX separator (`seps = "/"`) and for the
configuration the claims are about: `is_glob = True`,
`glob_is_escaped = False`, `ignore_case = False`, `ignore_hidden = False`
(hence `include_hidden = True` in `glob.translate`). -/

/-- A token produced by `PathFilter._tokenize`: `True`/`False` for a bare
unquoted `+`/`-`, otherwise the pattern string. -/
inductive FTok
  | act (b : Bool)
  | pat (s : List Char)
deriving DecidableEq, Repr

/-- `char.strip() == ""` on ASCII. -/
def isSpaceChar (c : Char) : Bool :=
  c = ' ' || c = '\t' || c = '\n' || c = '\x0d' || c = '\x0b' || c = '\x0c'

/-- `glob.escape` of a single glob character. -/
def globEscapeChar (c : Char) : List Char := ['[', c, ']']

/-- The state of the `_tokenize` scanner. -/
structure TokSt where
  escape : Bool := false
  squote : Bool := false
  dquote : Bool := false
  token : List Char := []
  tokstart : Nat := 0
  out : List FTok := []

/-- Yielding a finished token: a bare single-character `+` or `-` (the
token occupies exactly the character before position `i`, so it was not
quoted) becomes an action token. -/
def tokFlush (i : Nat) (st : TokSt) : TokSt :=
  if st.token = ['+'] then
    { st with
      out := st.out ++ [if i = st.tokstart + 1 then FTok.act true else FTok.pat ['+']]
      token := []
      tokstart := i + 1 }
  else if st.token = ['-'] then
    { st with
      out := st.out ++ [if i = st.tokstart + 1 then FTok.act false else FTok.pat ['-']]
      token := []
      tokstart := i + 1 }
  else if st.token ≠ [] then
    { st with
      out := st.out ++ [FTok.pat st.token]
      token := []
      tokstart := i + 1 }
  else st

/-- One character step of `PathFilter._tokenize` (the `is_glob = True`,
`glob_is_escaped = False` configuration). -/
def tokStep (i : Nat) (st : TokSt) (c : Char) : TokSt :=
  if isSpaceChar c then
    if st.escape then
      { st with
        token := st.token ++ (if st.dquote then ['\\', c] else [c]),
        escape := false }
    else if st.squote || st.dquote then
      { st with token := st.token ++ [c] }
    else tokFlush i st
  else if c = '\\' then
    if st.escape then { st with token := st.token ++ ['\\'], escape := false }
    else if st.squote then { st with token := st.token ++ ['\\'] }
    else { st with escape := true }
  else if c = '*' || c = '?' || c = '[' then
    if st.escape then { st with token := st.token ++ ['\\', c], escape := false }
    else if st.squote then { st with token := st.token ++ globEscapeChar c }
    else { st with token := st.token ++ [c] }
  else if c = '\'' then
    if st.escape then
      { st with
        token := st.token ++ (if st.dquote then ['\\', '\''] else ['\'']),
        escape := false }
    else if st.squote then { st with squote := false }
    else if st.dquote then { st with token := st.token ++ ['\''] }
    else { st with squote := true }
  else if c = '"' then
    if st.escape then { st with token := st.token ++ ['"'], escape := false }
    else if st.dquote then { st with dquote := false }
    else if st.squote then { st with token := st.token ++ ['"'] }
    else { st with dquote := true }
  else
    if st.escape then { st with token := st.token ++ ['\\', c], escape := false }
    else { st with token := st.token ++ [c] }

/-- `PathFilter._tokenize`: scan the filter string; the appended
terminating NUL raises on an unterminated escape or quote and otherwise
flushes the last token.  `none` models the `ValueError`s. -/
def tokenize (s : List Char) : Option (List FTok) :=
  if s.contains (Char.ofNat 0) then none
  else
    let st := (s.foldl (fun (p : Nat × TokSt) c => (p.1 + 1, tokStep p.1 p.2 c))
      ((0, {}) : Nat × TokSt))
    if st.2.escape || st.2.squote || st.2.dquote then none
    else some (tokFlush st.1 st.2).out

/-! #### The matcher: `glob.translate(pat, recursive=True,
include_hidden=True, seps="/")` followed by `re.match`.

A pattern is split on `/`; a `*` segment matches one non-empty
separator-free run, a `**` segment matches any number of whole segments
(consecutive `**` collapse), and any other segment matches by
`fnmatch`-style rules where `*` and `?` do not cross the separator.
Character classes (`[...]`) are outside this model: `[` is treated as a
literal, which agrees with every pattern in the claims.  The matching
functions carry fuel and are run with enough fuel to be total. -/

inductive GTok
  | lit (c : Char)
  | star
  | qmark
deriving DecidableEq, Repr

inductive PatPart
  | star
  | dstar
  | seg (toks : List GTok)
deriving DecidableEq, Repr

def segToks (cs : List Char) : List GTok :=
  cs.map fun c => if c = '*' then .star else if c = '?' then .qmark else .lit c

/-- Split a character list at every separator. -/
def splitSepAux : List Char → List Char → List (List Char)
  | acc, [] => [acc.reverse]
  | acc, c :: cs =>
    if c = '/' then acc.reverse :: splitSepAux [] cs else splitSepAux (c :: acc) cs

def splitSep (cs : List Char) : List (List Char) := splitSepAux [] cs

/-- Collapse consecutive `**` segments, as the translation skips a `**`
whose successor is also `**`. -/
def collapseDstar : List PatPart → List PatPart
  | [] => []
  | .dstar :: .dstar :: rest => collapseDstar (.dstar :: rest)
  | p :: rest => p :: collapseDstar rest

def parseParts (cs : List Char) : List PatPart :=
  collapseDstar ((splitSep cs).map fun s =>
    if s = ['*'] then .star else if s = ['*', '*'] then .dstar else .seg (segToks s))

/-- `fnmatch` within one segment: `*` → `[^/]*`, `?` → `[^/]`, literals
match themselves. -/
def segMatch : Nat → List GTok → List Char → Bool
  | 0, _, _ => false
  | _ + 1, [], cs => cs.isEmpty
  | _ + 1, .lit _ :: _, [] => false
  | fuel + 1, .lit c :: ts, x :: xs => x = c && segMatch fuel ts xs
  | _ + 1, .qmark :: _, [] => false
  | fuel + 1, .qmark :: ts, x :: xs => x ≠ '/' && segMatch fuel ts xs
  | fuel + 1, .star :: ts, cs =>
    segMatch fuel ts cs ||
      match cs with
      | [] => false
      | x :: xs => x ≠ '/' && segMatch fuel (.star :: ts) xs

/-- Split at the first separator, if any. -/
def splitFirstSep : List Char → Option (List Char × List Char)
  | [] => none
  | c :: cs =>
    if c = '/' then some ([], cs)
    else match splitFirstSep cs with
      | some (b, a) => some (c :: b, a)
      | none => none

mutual

/-- Match a translated pattern against a path: the last segment is
matched by `[^/]+` (`*`), `.*` (`**`) or the segment tokens; a non-last
`*` consumes `[^/]+/`, a non-last `**` consumes `(?:.+/)?`, and a
non-last plain segment consumes its tokens followed by `/`. -/
def pmatch : Nat → List PatPart → List Char → Bool
  | 0, _, _ => false
  | _ + 1, [], cs => cs.isEmpty
  | _ + 1, [.star], cs => !cs.isEmpty && cs.all (fun c => c ≠ '/')
  | _ + 1, [.dstar], _ => true
  | fuel + 1, [.seg toks], cs => segMatch (toks.length + cs.length + 1) toks cs
  | fuel + 1, .star :: p :: ps, cs =>
    match splitFirstSep cs with
    | some (b, a) => !b.isEmpty && pmatch fuel (p :: ps) a
    | none => false
  | fuel + 1, .dstar :: p :: ps, cs =>
    pmatch fuel (p :: ps) cs || anySep fuel (p :: ps) cs
  | fuel + 1, .seg toks :: p :: ps, cs =>
    match splitFirstSep cs with
    | some (b, a) => segMatch (toks.length + b.length + 1) toks b && pmatch fuel (p :: ps) a
    | none => false

/-- `.+/` followed by the rest of the pattern: at least one arbitrary
character, then a separator. -/
def anySep : Nat → List PatPart → List Char → Bool
  | 0, _, _ => false
  | _ + 1, _, [] => false
  | fuel + 1, ps, _ :: cs =>
    (match cs with
     | '/' :: rest => pmatch fuel ps rest
     | _ => false) || anySep fuel ps cs

end

/-- Anchored match of a compiled glob pattern against a relative path. -/
def globMatch (pat : List Char) (path : List Char) : Bool :=
  let parts := parseParts pat
  pmatch (2 * (parts.length + path.length) + 1) parts path

/-! #### Pattern compilation: `_parse_pattern` and `_get_segments` -/

/-- A compiled `PathFilter._Segment` (the regex matcher is a pure
function of the glob pattern in this configuration, so only the pattern
is stored). -/
structure Segment where
  globPattern : List Char
  action : Bool
  isRelative : Bool
  isImplicit : Bool
deriving DecidableEq, Repr

/-- `re.sub("[/]+", "/", s)`. -/
def collapseSlashesAux : Bool → List Char → List Char
  | _, [] => []
  | prevSep, c :: cs =>
    if c = '/' then
      if prevSep then collapseSlashesAux true cs
      else '/' :: collapseSlashesAux true cs
    else c :: collapseSlashesAux false cs

def collapseSlashes (cs : List Char) : List Char := collapseSlashesAux false cs

/-- `.` / `..` path-segment rejection: the pattern is `..`, or some
segment boundary carries a `.` or `..` component. -/
def hasDotSegment (cs : List Char) : Bool :=
  cs = ['.', '.'] ||
    (let parts := splitSep cs
     decide (2 ≤ parts.length) &&
       parts.any (fun p => p = ['.'] || p = ['.', '.']))

/-- Trailing-slash count parity handling for the `is_dir` argument.
After slash collapsing the count is 0 or 1. -/
def applyIsDir (isDir : Option Bool) (cs : List Char) : List Char :=
  match isDir with
  | none => cs
  | some d =>
    let trailing := (cs.reverse.takeWhile (fun c => c = '/')).length
    if d then (if trailing % 2 = 0 then cs ++ ['/'] else cs)
    else (if trailing % 2 = 1 then cs.dropLast else cs)

/-- `PathFilter._parse_pattern` for `is_glob = True`,
`glob_is_escaped = False` (in this configuration
`_convert_to_glob_string` maps every character to itself).  `none` is a
`ValueError`; `some none` is an empty pattern. -/
def parsePattern (action : Bool) (pattern : List Char) (isDir : Option Bool) :
    Option (Option Segment) :=
  let isRel := match pattern with
    | '.' :: '/' :: _ => true
    | _ => false
  let p1 := if isRel then (pattern.drop 2).dropWhile (fun c => c = '/') else pattern
  if p1 = [] then some none
  else if p1 = ['\\', '-'] || p1 = ['\\', '+'] then none
  else
    let glob := p1
    if hasDotSegment glob then none
    else
      let glob := collapseSlashes glob
      if glob.head? = some '/' then none
      else
        let glob := applyIsDir isDir glob
        some (some ⟨glob, action, isRel, false⟩)

/-- `s.rstrip("/")`. -/
def rstripSlash (cs : List Char) : List Char :=
  (cs.reverse.dropWhile (fun c => c = '/')).reverse

/-- `os.path.dirname` (POSIX): the prefix up to and including the last
separator, with trailing separators stripped unless the prefix is all
separators. -/
def dirname (cs : List Char) : List Char :=
  match splitFirstSep cs.reverse with
  | some (_, revInit) =>
    let head := revInit.reverse ++ ['/']
    if head.all (fun c => c = '/') then head else rstripSlash head
  | none => []

/-- The implicit-ancestor loop of `_get_segments`: repeatedly take
`dirname`, stop at the root or at a directory pattern that this include
group already allowed; each produced rule is marked implicit and
(via `allow()`) recorded in `_tmp_allowed`. -/
def ancestorSegs : Nat → List (List Char) → List Char →
    List Segment × List (List Char)
  | 0, ta, _ => ([], ta)
  | fuel + 1, ta, pattern =>
    let pattern := dirname pattern
    if pattern = [] || pattern = ['/'] then ([], ta)
    else match parsePattern true pattern (some true) with
      | some (some sg) =>
        if ta.contains sg.globPattern then ([], ta)
        else
          let sg := { sg with isImplicit := true }
          let r := ancestorSegs fuel (ta ++ [sg.globPattern]) pattern
          (sg :: r.1, r.2)
      | _ => ([], ta)

/-- Expansion of one non-relative pattern in an `allow()` call: the
explicit segment followed by its implicit ancestors, with the
`_tmp_allowed` bookkeeping of `allow()`. -/
def expandAbsolute (sg : Segment) (pattern : List Char)
    (ta : List (List Char)) : List Segment × List (List Char) :=
  let ta := ta ++ [sg.globPattern]
  if sg.action then
    let base := rstripSlash pattern
    let r := ancestorSegs (base.length + 1) ta base
    (sg :: r.1, r.2)
  else ([sg], ta)

/-- The relative branch of `_get_segments`: walk the compiled segments
newest-first, stopping at the first reject segment; every non-implicit
include-directory rule receives the relative pattern appended (expanded
recursively like a fresh include, marked implicit); if none was found
the pattern is kept rooted. -/
def relLoop (isDir : Option Bool) (sg : Segment) :
    List Segment → Bool → List (List Char) → Option (List Segment × List (List Char))
  | [], handled, ta =>
    if handled then some ([], ta)
    else some ([{ sg with isImplicit := true }], ta ++ [sg.globPattern])
  | p :: rest, handled, ta =>
    if !p.action then
      if handled then some ([], ta)
      else some ([{ sg with isImplicit := true }], ta ++ [sg.globPattern])
    else if !p.isImplicit && p.globPattern.getLast? = some '/' then
      match parsePattern true (p.globPattern ++ sg.globPattern) isDir with
      | none => none
      | some none => relLoop isDir sg rest true ta
      | some (some sg2) =>
        if sg2.isRelative then none
        else
          let r1 := expandAbsolute { sg2 with isImplicit := true }
            (p.globPattern ++ sg.globPattern) ta
          let r1 := (r1.1.map fun s => { s with isImplicit := true }, r1.2)
          match relLoop isDir sg rest true r1.2 with
          | none => none
          | some r2 => some (r1.1 ++ r2.1, r2.2)
    else relLoop isDir sg rest handled ta

/-- `PathFilter._get_segments`: parse the pattern and expand it into the
segments it contributes, together with the updated `_tmp_allowed` set
(`none` models the `ValueError`s, including a relative pattern under a
reject action). -/
def getSegments (action : Bool) (pattern : List Char) (isDir : Option Bool)
    (segments : List Segment) (ta : List (List Char)) :
    Option (List Segment × List (List Char)) :=
  match parsePattern action pattern isDir with
  | none => none
  | some none => some ([], ta)
  | some (some sg) =>
    if sg.isRelative && !sg.action then none
    else if !sg.isRelative then
      if action then some (expandAbsolute sg pattern ta)
      else some ([sg], ta)
    else
      relLoop isDir sg segments.reverse false ta

/-- The `PathFilter.__init__` token loop: `+`/`-` switch the action,
patterns are added by `allow()`/`reject()`; `reject()` clears
`_tmp_allowed`. -/
def pathFilterBuild : List FTok → Bool → List Segment → List (List Char) →
    Option (List Segment)
  | [], _, segs, _ => some segs
  | .act b :: toks, _, segs, ta => pathFilterBuild toks b segs ta
  | .pat p :: toks, action, segs, ta =>
    if action then
      match getSegments true p none segs ta with
      | none => none
      | some r => pathFilterBuild toks action (segs ++ r.1) r.2
    else
      match getSegments false p none segs [] with
      | none => none
      | some r => pathFilterBuild toks action (segs ++ r.1) r.2

/-- Compile a filter string into its segment list (`PathFilter.__init__`
with the default keyword arguments of the POSIX model). -/
def pathFilter (s : String) : Option (List Segment) :=
  match tokenize s.data with
  | none => none
  | some toks => pathFilterBuild toks true [] []

/-- `PathFilter.filter`: the first segment whose matcher matches decides;
otherwise the default applies. -/
def pathFilterEval (segs : List Segment) (dflt : Bool) (relpath : String) : Bool :=
  match segs.find? (fun sg => globMatch sg.globPattern relpath.data) with
  | some sg => sg.action
  | none => dflt

/-! #### Spec-side model of the relative-pattern rule

The specification describes a pattern beginning with `./` as "concatenated
onto the most recent non-implicit include-directory rule in the same include
group (or treated as rooted if no such rule exists)".  The following
definitions are written from those words, not from the source, so that the
behaviour they describe can be compared with `relLoop`: the newest-first walk
stops at the group boundary (a reject segment), the relative pattern is
attached to only the first — most recent — non-implicit include-directory
rule found, and with no such rule it is kept rooted. -/

/-- Spec-side counterpart of `relLoop`: stop after the most recent
non-implicit include-directory rule instead of visiting all of them. -/
def specRelLoop (isDir : Option Bool) (sg : Segment) :
    List Segment → List (List Char) → Option (List Segment × List (List Char))
  | [], ta => some ([{ sg with isImplicit := true }], ta ++ [sg.globPattern])
  | p :: rest, ta =>
    if !p.action then some ([{ sg with isImplicit := true }], ta ++ [sg.globPattern])
    else if !p.isImplicit && p.globPattern.getLast? = some '/' then
      match parsePattern true (p.globPattern ++ sg.globPattern) isDir with
      | none => none
      | some none => some ([], ta)
      | some (some sg2) =>
        if sg2.isRelative then none
        else
          let r1 := expandAbsolute { sg2 with isImplicit := true }
            (p.globPattern ++ sg.globPattern) ta
          some (r1.1.map fun s => { s with isImplicit := true }, r1.2)
    else specRelLoop isDir sg rest ta

/-- Spec-side counterpart of `getSegments`, differing only in the relative
branch. -/
def specGetSegments (action : Bool) (pattern : List Char) (isDir : Option Bool)
    (segments : List Segment) (ta : List (List Char)) :
    Option (List Segment × List (List Char)) :=
  match parsePattern action pattern isDir with
  | none => none
  | some none => some ([], ta)
  | some (some sg) =>
    if sg.isRelative && !sg.action then none
    else if !sg.isRelative then
      if action then some (expandAbsolute sg pattern ta)
      else some ([sg], ta)
    else specRelLoop isDir sg segments.reverse ta

/-- Spec-side counterpart of `pathFilterBuild`. -/
def specPathFilterBuild : List FTok → Bool → List Segment → List (List Char) →
    Option (List Segment)
  | [], _, segs, _ => some segs
  | .act b :: toks, _, segs, ta => specPathFilterBuild toks b segs ta
  | .pat p :: toks, action, segs, ta =>
    if action then
      match specGetSegments true p none segs ta with
      | none => none
      | some r => specPathFilterBuild toks action (segs ++ r.1) r.2
    else
      match specGetSegments false p none segs [] with
      | none => none
      | some r => specPathFilterBuild toks action (segs ++ r.1) r.2

/-- Spec-side counterpart of `pathFilter`. -/
def specPathFilter (s : String) : Option (List Segment) :=
  match tokenize s.data with
  | none => none
  | some toks => specPathFilterBuild toks true [] []

/-! ### The flat engine: `_operations` (core.py lines 831–1043)

The older, complete generation of the engine in core.py builds flat
normalized-relative-path dictionaries and sets from the two filtered
scans and yields operations in the order: delete empty directories,
renames, deletes or trash moves, creates, updates, create empty
directories.  `Path` values are embedded as POSIX strings (`root / rel`
is `root ++ "/" ++ rel`), Python `set`s as insertion-ordered
duplicate-free lists, the trailing-1KiB comparison
`_last_bytes(on_src) == _last_bytes(on_dst)` as the boolean oracle
`lastEq` (its arguments the normalized rename_to and rename_from), and
the Windows-only pruning of reserved remote names (`os.sep == "\\"`
with a RemotePath source) is absent from the POSIX model.  A dictionary
access the code guarantees to succeed is embedded as `getD` with an
arbitrary default. -/

/-- `_ScandirEntry.Category`: FILE or EMPTY_DIR. -/
inductive ScanCategory
  | file
  | emptyDir
deriving DecidableEq, Repr

/-- `_ScandirEntry` (core.py): one filtered scan result — the category,
the normalized relative path (`os.path.normcase` applied on Windows),
the on-disk relative path and the file metadata. -/
structure ScandirEntry where
  category : ScanCategory
  normpath : String
  path : String
  meta : Metadata
deriving DecidableEq, Repr

/-- `_Operation.Category` (core.py). -/
inductive FlatOpCategory
  | deleteDir
  | renameFile
  | deleteFile
  | trashFile
  | createFile
  | updateFile
  | createDir
deriving DecidableEq, Repr

/-- `_Operation` (core.py): category, absolute source and destination
paths, predicted byte delta and the one-line summary. -/
structure FlatOperation where
  category : FlatOpCategory
  src : Option String
  dst : Option String
  byteDiff : Int
  summary : String
deriving DecidableEq, Repr

/-- The string order `sorted` uses (`a == b or a < b`). -/
def strLe (a b : String) : Bool := a == b || decide (a < b)

/-- `set.add` on an insertion-ordered duplicate-free list. -/
def strSetInsert (l : List String) (s : String) : List String :=
  if l.contains s then l else l ++ [s]

/-- `root / rel` for POSIX paths. -/
def pjoin (root rel : String) : String := root ++ "/" ++ rel

/-- The `real_names` accumulation loop (core.py lines 859–873):
`names[entry.normpath] = entry.path` over the scan. -/
def scanNames (l : List ScandirEntry) : List (String × String) :=
  l.foldl (fun d e => alInsert d e.normpath e.path) []

/-- The `meta` accumulation loop: `meta[entry.normpath] = entry.meta`
over the scan. -/
def scanMeta (l : List ScandirEntry) : List (String × Metadata) :=
  l.foldl (fun d e => alInsert d e.normpath e.meta) []

/-- The `relpaths` set: normpaths of the scan entries of category
FILE. -/
def scanFileSet (l : List ScandirEntry) : List String :=
  l.foldl
    (fun s e => if e.category = ScanCategory.file then strSetInsert s e.normpath else s) []

/-- The `empty_dirs` set: normpaths of the scan entries of category
EMPTY_DIR. -/
def scanEmptySet (l : List ScandirEntry) : List String :=
  l.foldl
    (fun s e => if e.category = ScanCategory.emptyDir then strSetInsert s e.normpath else s) []

/-- The body of the update loop (core.py lines 1004–1030): an UPDATE_FILE
operation when the source mtime is strictly newer, or strictly older
with force_update; nothing when the mtimes are equal. -/
def flatUpdateOp (srcRoot dstRoot : String)
    (srcRealNames dstRealNames : List (String × String))
    (srcMetaD dstMetaD : List (String × Metadata)) (forceUpdate : Bool)
    (rp : String) : Option FlatOperation :=
  let sreal := (alGet srcRealNames rp).getD rp
  let dreal := (alGet dstRealNames rp).getD rp
  let ms := (alGet srcMetaD rp).getD ⟨0, 0⟩
  let md := (alGet dstMetaD rp).getD ⟨0, 0⟩
  if md.mtime < ms.mtime then
    some ⟨FlatOpCategory.updateFile, some (pjoin srcRoot sreal),
      some (pjoin dstRoot dreal), ms.size - md.size, "U " ++ dreal⟩
  else if ms.mtime < md.mtime then
    if forceUpdate then
      some ⟨FlatOpCategory.updateFile, some (pjoin srcRoot sreal),
        some (pjoin dstRoot dreal), ms.size - md.size, "U " ++ dreal⟩
    else none
  else none

/-- One iteration of the rename loop (core.py lines 916–957) on the
state (src_only_relpaths, dst_only_relpaths, emitted operations): skip
files below the threshold, unmatched or ambiguous signatures
(`_reverse_dict` value `None`) and failed trailing-byte comparisons;
otherwise remove the pair from the only-lists and emit a RENAME_FILE
operation.  The oracle `lastEq` models a `_last_bytes` comparison that
completes with a boolean: an `OSError` raised there would propagate out
of `_operations` (the loop's `try` catches only `KeyError`) and is
outside this model. -/
def flatRenameStep (dstRoot : String)
    (srcRealNames dstRealNames : List (String × String))
    (dstMetaD : List (String × Metadata))
    (srcOnlyFromMeta dstOnlyFromMeta : List (Metadata × Option String))
    (metadataOnly : Bool) (lastEq : String → String → Bool) (threshold : Int)
    (st : List String × List String × List FlatOperation) (dstRelpath : String) :
    List String × List String × List FlatOperation :=
  match alGet dstMetaD dstRelpath with
  | none => st
  | some m =>
    if m.size < threshold then st
    else match alGet srcOnlyFromMeta m with
      | none => st
      | some none => st
      | some (some renameTo) =>
        match alGet dstOnlyFromMeta m with
        | none => st
        | some none => st
        | some (some renameFrom) =>
          if !metadataOnly && !lastEq renameTo renameFrom then st
          else
            let rf := (alGet dstRealNames renameFrom).getD renameFrom
            let rt := (alGet srcRealNames renameTo).getD renameTo
            (st.1.erase renameTo, st.2.1.erase renameFrom,
              st.2.2 ++ [⟨FlatOpCategory.renameFile, some (pjoin dstRoot rf),
                some (pjoin dstRoot rt), 0, "R " ++ rf ++ " -> " ++ rt⟩])

/-- `_operations` (core.py lines 831–1043). -/
def flatOperations (srcRoot dstRoot : String)
    (srcFiles dstFiles : List ScandirEntry) (trashRoot : Option String)
    (deleteFiles forceUpdate metadataOnly : Bool)
    (renameThreshold : Option Int) (lastEq : String → String → Bool) :
    List FlatOperation :=
  let srcRealNames := scanNames srcFiles
  let dstRealNames := scanNames dstFiles
  let srcMetaD := scanMeta srcFiles
  let dstMetaD := scanMeta dstFiles
  let srcRelpaths := scanFileSet srcFiles
  let dstRelpaths := scanFileSet dstFiles
  let srcEmptyDirs := scanEmptySet srcFiles
  let dstEmptyDirs := scanEmptySet dstFiles
  let srcOnly := stableSort strLe (srcRelpaths.filter (fun p => !dstRelpaths.contains p))
  let dstOnly := stableSort strLe (dstRelpaths.filter (fun p => !srcRelpaths.contains p))
  let both := stableSort strLe (srcRelpaths.filter (fun p => dstRelpaths.contains p))
  let dstOnlyEmpty := dstEmptyDirs.filter (fun p => !srcEmptyDirs.contains p)
  let emptyDirOps := dstOnlyEmpty.map (fun rp =>
    let real := (alGet dstRealNames rp).getD rp
    (⟨FlatOpCategory.deleteDir, some (pjoin dstRoot real), none, 0,
      "- " ++ real ++ "/"⟩ : FlatOperation))
  let rst :=
    match renameThreshold with
    | none => (srcOnly, dstOnly, ([] : List FlatOperation))
    | some t =>
      let srcOnlyFromMeta := reverseDict
        (srcOnly.map fun p => (p, (alGet srcMetaD p).getD ⟨0, 0⟩))
      let dstOnlyFromMeta := reverseDict
        (dstOnly.map fun p => (p, (alGet dstMetaD p).getD ⟨0, 0⟩))
      dstOnly.foldl (flatRenameStep dstRoot srcRealNames dstRealNames dstMetaD
        srcOnlyFromMeta dstOnlyFromMeta metadataOnly lastEq t) (srcOnly, dstOnly, [])
  let deleteOps :=
    if deleteFiles then
      rst.2.1.map (fun rp =>
        let real := (alGet dstRealNames rp).getD rp
        (⟨FlatOpCategory.deleteFile, some (pjoin dstRoot real), none,
          -((alGet dstMetaD rp).getD ⟨0, 0⟩).size, "- " ++ real⟩ : FlatOperation))
    else match trashRoot with
      | some tr => rst.2.1.map (fun rp =>
          let real := (alGet dstRealNames rp).getD rp
          (⟨FlatOpCategory.trashFile, some (pjoin dstRoot real),
            some (pjoin tr real), 0, "~ " ++ real⟩ : FlatOperation))
      | none => []
  let createOps := rst.1.map (fun rp =>
    let real := (alGet srcRealNames rp).getD rp
    (⟨FlatOpCategory.createFile, some (pjoin srcRoot real), some (pjoin dstRoot real),
      ((alGet srcMetaD rp).getD ⟨0, 0⟩).size, "+ " ++ real⟩ : FlatOperation))
  let updateOps := both.filterMap
    (flatUpdateOp srcRoot dstRoot srcRealNames dstRealNames srcMetaD dstMetaD
      forceUpdate)
  let srcOnlyEmpty := srcEmptyDirs.filter (fun p => !dstEmptyDirs.contains p)
  let createDirOps := srcOnlyEmpty.map (fun rp =>
    let real := (alGet srcRealNames rp).getD rp
    (⟨FlatOpCategory.createDir, none, some (pjoin dstRoot real), 0,
      "+ " ++ real ++ "/"⟩ : FlatOperation))
  emptyDirOps ++ rst.2.2 ++ deleteOps ++ createOps ++ updateOps ++ createDirOps

/-! ### The executor's error-count limit

Modelled from the spec: the executor class `core.Sync`, whose `run`
drives the scheduled operations, is not among the repository's source
files — `__init__.py` re-exports `core.Sync` and the tests and
`__main__` construct `core.Sync(...)` and call `.run()`, but core.py
defines no such class, and the `Results.Status` it does define has no
`ErrorLimitReached` member; only the `_SyncConfig.err_limit` field and
the `--err-limit` command-line flag (default `None`) exist.  The
definitions below therefore model the specification's sentence: on a
recoverable per-operation failure the run tallies it and continues,
unless the configured error-count limit is reached, which terminates
the run with status `ErrorLimitReached`. -/

/-- Modelled from the spec: the terminal statuses of a run that this
development reasons about. -/
inductive RunStatus
  | completed
  | errorLimitReached
deriving DecidableEq, Repr

/-- Modelled from the spec: the failure tally and the terminal status
carried by the run's `Results`. -/
structure RunResults where
  failures : Nat
  status : RunStatus
deriving DecidableEq, Repr

/-- Modelled from the spec: the executor loop over per-operation
outcomes (`true` a success, `false` a recoverable failure): a failure
is tallied; with a configured limit, a tally reaching it terminates the
run with `ErrorLimitReached`; otherwise the run continues to the end
and completes. -/
def execRun (errLimit : Option Nat) : List Bool → Nat → RunResults
  | [], fails => ⟨fails, RunStatus.completed⟩
  | ok :: rest, fails =>
    if ok then execRun errLimit rest fails
    else
      match errLimit with
      | some lim =>
        if lim ≤ fails + 1 then ⟨fails + 1, RunStatus.errorLimitReached⟩
        else execRun errLimit rest (fails + 1)
      | none => execRun errLimit rest (fails + 1)

theorem mem_insertOrdered (le : α → α → Bool) (x a : α) (l : List α) :
    a ∈ insertOrdered le x l ↔ a = x ∨ a ∈ l := by
  induction l with
  | nil => simp [insertOrdered]
  | cons y ys ih =>
    cases h : le y x <;> simp [insertOrdered, h, ih] <;> tauto

theorem mem_stableSort (le : α → α → Bool) (a : α) (l : List α) :
    a ∈ stableSort le l ↔ a ∈ l := by
  suffices h : ∀ acc, a ∈ l.foldl (fun acc x => insertOrdered le x acc) acc ↔
      a ∈ acc ∨ a ∈ l by
    have := h []
    simpa [stableSort] using this
  induction l with
  | nil => intro acc; simp
  | cons x xs ih =>
    intro acc
    simp only [List.foldl_cons, ih, mem_insertOrdered, List.mem_cons]
    tauto

theorem alGet_cons [BEq β] (kv : β × γ) (l : List (β × γ)) (v : β) :
    alGet (kv :: l) v = if kv.1 == v then some kv.2 else alGet l v := by
  cases h : kv.1 == v <;> simp [alGet, List.find?_cons, h]

theorem alGet_isSome_iff_any [BEq β] (l : List (β × γ)) (v : β) :
    (alGet l v).isSome = l.any (fun kv => kv.1 == v) := by
  induction l with
  | nil => rfl
  | cons kv l ih =>
    rw [alGet_cons, List.any_cons]
    cases h : kv.1 == v <;> simp [ih]

theorem alGet_mapNone_self [BEq β] (l : List (β × Option α)) (v : β) :
    alGet (l.map fun kv => if kv.1 == v then (kv.1, (none : Option α)) else kv) v
      = if l.any (fun kv => kv.1 == v) then some none else none := by
  induction l with
  | nil => rfl
  | cons kv l ih =>
    rw [List.map_cons, List.any_cons]
    cases h : kv.1 == v
    · rw [Bool.false_or]; simp [alGet_cons, h, ih]
    · simp [alGet_cons, h]

theorem alGet_mapNone_other [BEq β] [LawfulBEq β] (l : List (β × Option α))
    (w v : β) (h : (w == v) = false) :
    alGet (l.map fun kv => if kv.1 == w then (kv.1, (none : Option α)) else kv) v
      = alGet l v := by
  induction l with
  | nil => rfl
  | cons kv l ih =>
    rw [List.map_cons]
    cases hk : kv.1 == w
    · simp [alGet_cons, ih]
    · have hkv : (kv.1 == v) = false := by rw [eq_of_beq hk]; exact h
      simp [alGet_cons, hkv, ih]

/-- The central fact about `_reverse_dict`: looking up a value gives the
unique key carrying it, `None` when the value is duplicated, and no entry
at all when the value does not occur. -/
theorem alGet_reverseDict [BEq β] [LawfulBEq β] (l : List (α × β)) (v : β) :
    alGet (reverseDict l) v =
      match valKeys l v with
      | [] => none
      | [k] => some (some k)
      | _ :: _ :: _ => some none := by
  induction l using List.reverseRecOn with
  | nil => rfl
  | append_singleton l kv ih =>
    have hstep : reverseDict (l ++ [kv]) = revInsert (reverseDict l) kv.1 kv.2 := by
      simp [reverseDict, List.foldl_append]
    rw [hstep]
    unfold revInsert
    cases hv : kv.2 == v
    · have hvk : valKeys (l ++ [kv]) v = valKeys l v := by
        simp [valKeys, List.filter_append, hv]
      rw [hvk]
      by_cases hany : (reverseDict l).any (fun p => p.1 == kv.2)
      · rw [if_pos hany, alGet_mapNone_other _ _ _ hv]
        exact ih
      · rw [if_neg hany]
        rw [alGet, List.find?_append]
        have h2 : List.find? (fun p => p.1 == v) [(kv.2, some kv.1)] = none := by
          simp [List.find?_cons, hv]
        rw [h2, Option.or_none]
        exact ih
    · have hkv : kv.2 = v := eq_of_beq hv
      have hvk : valKeys (l ++ [kv]) v = valKeys l v ++ [kv.1] := by
        simp [valKeys, List.filter_append, hv]
      rw [hvk]
      by_cases hany : (reverseDict l).any (fun p => p.1 == kv.2)
      · rw [if_pos hany]
        rw [hkv] at hany ⊢
        rw [alGet_mapNone_self, if_pos hany]
        have hsome : (alGet (reverseDict l) v).isSome = true := by
          rw [alGet_isSome_iff_any]; exact hany
        rw [ih] at hsome
        rcases hvkv : valKeys l v with _ | ⟨k, tl⟩
        · rw [hvkv] at hsome; simp at hsome
        · cases tl <;> rfl
      · rw [if_neg hany]
        rw [hkv] at hany ⊢
        have hnone : alGet (reverseDict l) v = none := by
          have hiff := alGet_isSome_iff_any (reverseDict l) v
          rcases ho : alGet (reverseDict l) v with _ | w
          · rfl
          · exfalso; apply hany; rw [← hiff, ho]; rfl
        have hempty : valKeys l v = [] := by
          rw [ih] at hnone
          rcases hvkv : valKeys l v with _ | ⟨k, tl⟩
          · rfl
          · rw [hvkv] at hnone; cases tl <;> simp at hnone
        rw [hempty]
        rw [alGet, List.find?_append]
        have h1 : List.find? (fun p => p.1 == v) (reverseDict l) = none := by
          rcases hf : List.find? (fun p => p.1 == v) (reverseDict l) with _ | w
          · exact hf
          · exfalso
            have hs : (alGet (reverseDict l) v).isSome = true := by
              rw [alGet, hf]; rfl
            rw [hnone] at hs; simp at hs
        rw [h1, Option.none_or]
        simp [List.find?_cons]

theorem reverseDict_keys_nodup [BEq β] [LawfulBEq β] (l : List (α × β)) :
    ((reverseDict l).map Prod.fst).Nodup := by
  induction l using List.reverseRecOn with
  | nil => simp [reverseDict]
  | append_singleton l kv ih =>
    have hstep : reverseDict (l ++ [kv]) = revInsert (reverseDict l) kv.1 kv.2 := by
      simp [reverseDict, List.foldl_append]
    rw [hstep]
    unfold revInsert
    by_cases hany : (reverseDict l).any (fun p => p.1 == kv.2)
    · rw [if_pos hany]
      have hkeys : ((reverseDict l).map
          (fun kv' => if kv'.1 == kv.2 then (kv'.1, (none : Option α)) else kv')).map
            Prod.fst = (reverseDict l).map Prod.fst := by
        rw [List.map_map]
        apply List.map_congr_left
        intro p _
        by_cases hp : (p.1 == kv.2) = true <;> simp [hp]
      rw [hkeys]
      exact ih
    · rw [if_neg hany]
      rw [List.map_append]
      apply List.Nodup.append ih (by simp)
      intro a ha hb
      simp only [List.map_cons, List.map_nil, List.mem_singleton] at hb
      subst hb
      rw [List.mem_map] at ha
      obtain ⟨p, hp, hpa⟩ := ha
      apply hany
      rw [List.any_eq_true]
      exact ⟨p, hp, by rw [hpa]; exact beq_self_eq_true _⟩

theorem alGet_of_mem_of_nodup [BEq β] [LawfulBEq β] {l : List (β × γ)} {k : β} {w : γ}
    (hnd : (l.map Prod.fst).Nodup) (h : (k, w) ∈ l) : alGet l k = some w := by
  induction l with
  | nil => cases h
  | cons kv l ih =>
    rw [List.map_cons, List.nodup_cons] at hnd
    rcases List.mem_cons.mp h with h1 | h1
    · rw [← h1, alGet_cons]
      simp
    · rw [alGet_cons]
      have hk : (kv.1 == k) = false := by
        rw [beq_eq_false_iff_ne]
        intro he
        exact hnd.1 (he ▸ List.mem_map_of_mem Prod.fst h1)
      rw [hk]
      simp only [Bool.false_eq_true, if_false]
      exact ih hnd.2 h1

theorem alMem_value_unique [BEq β] [LawfulBEq β] {l : List (β × γ)} {k : β} {a b : γ}
    (hnd : (l.map Prod.fst).Nodup) (ha : (k, a) ∈ l) (hb : (k, b) ∈ l) : a = b := by
  have h1 := alGet_of_mem_of_nodup hnd ha
  have h2 := alGet_of_mem_of_nodup hnd hb
  rw [h1] at h2
  exact Option.some.inj h2

theorem mem_valKeys_iff [BEq β] [LawfulBEq β] (l : List (α × β)) (v : β) (k : α) :
    k ∈ valKeys l v ↔ (k, v) ∈ l := by
  simp only [valKeys, List.mem_map, List.mem_filter]
  constructor
  · rintro ⟨⟨k', v'⟩, ⟨hm, he⟩, hk⟩
    cases hk
    exact (eq_of_beq he) ▸ hm
  · intro hm
    exact ⟨(k, v), ⟨hm, beq_self_eq_true v⟩, rfl⟩

/-- Every pair accumulated by the `matched_meta` loop of
`get_file_rename_map` comes from a metadata value that is unique on the
destination side, at least `rename_threshold` large, and unique on the
source side, with a distinct source path. -/
theorem mem_foldl_renameMapStep (cfg : RenameCfg)
    (srcRev : List (Metadata × Option Relpath)) (x y : Relpath) :
    ∀ (L : List (Metadata × Option Relpath)) (acc : List (Relpath × Relpath)),
      (x, y) ∈ L.foldl (renameMapStep cfg srcRev) acc →
      (x, y) ∈ acc ∨ ∃ m : Metadata, (m, some x) ∈ L ∧
        cfg.renameThreshold ≤ m.size ∧ alGet srcRev m = some (some y) ∧ y ≠ x := by
  intro L
  induction L with
  | nil => intro acc h; exact Or.inl h
  | cons mv L ih =>
    intro acc h
    rw [List.foldl_cons] at h
    rcases ih _ h with h1 | ⟨m, hm, hthr, hsrc, hne⟩
    · unfold renameMapStep at h1
      rcases hmv : mv.2 with _ | dstFile
      · rw [hmv] at h1; exact Or.inl h1
      · rw [hmv] at h1
        dsimp only at h1
        by_cases hthr : cfg.renameThreshold ≤ mv.1.size
        · rw [if_pos hthr] at h1
          rcases hsrc : alGet srcRev mv.1 with _ | w
          · rw [hsrc] at h1; exact Or.inl h1
          · rcases w with _ | srcFile
            · rw [hsrc] at h1; exact Or.inl h1
            · rw [hsrc] at h1
              dsimp only at h1
              by_cases heq : srcFile = dstFile
              · rw [if_pos heq] at h1; exact Or.inl h1
              · rw [if_neg heq] at h1
                by_cases htail : (!cfg.metadataOnly && !(cfg.lastBytesEq srcFile dstFile)) = true
                · rw [if_pos htail] at h1; exact Or.inl h1
                · rw [if_neg htail] at h1
                  rcases List.mem_append.mp h1 with h2 | h2
                  · exact Or.inl h2
                  · rw [List.mem_singleton] at h2
                    rw [Prod.mk.injEq] at h2
                    refine Or.inr ⟨mv.1, ?_, hthr, ?_, ?_⟩
                    · rw [h2.1, ← hmv]
                      exact List.mem_cons_self mv L
                    · rw [hsrc, h2.2]
                    · rw [h2.1, h2.2]; exact fun he => heq he
        · rw [if_neg hthr] at h1; exact Or.inl h1
    · exact Or.inr ⟨m, List.mem_cons_of_mem mv hm, hthr, hsrc, hne⟩

/-- C3. Only metadata signatures that are unique among the non-ignored
files of each side, and at least `rename_threshold` large, can pair into
a rename: every entry `(x, y)` of `get_file_rename_map` carries a
signature `m` for which `x` is the sole non-ignored destination file with
signature `m` and `y` the sole non-ignored source file with signature
`m`, with `m.size ≥ rename_threshold`.  Consequently, two distinct
destination files sharing a signature never appear as rename sources
(even if a source-only file carries the same signature), and symmetrically
two distinct source files sharing a signature never appear as rename
targets. -/
theorem rename_map_requires_unique_signatures (cfg : RenameCfg) (d : DiffData)
    (hndD : (d.dstMeta.map Prod.fst).Nodup)
    (hndS : (d.srcMeta.map Prod.fst).Nodup) :
    (∀ x y, (x, y) ∈ getFileRenameMap cfg d →
      ∃ m : Metadata,
        valKeys (d.dstMeta.filter fun kv => !(d.ignoredDst.contains kv.1)) m = [x] ∧
        valKeys (d.srcMeta.filter fun kv => !(d.ignoredSrc.contains kv.1)) m = [y] ∧
        cfg.renameThreshold ≤ m.size) ∧
    (∀ p q mp, p ≠ q → (p, mp) ∈ d.dstMeta → (q, mp) ∈ d.dstMeta →
      p ∉ d.ignoredDst → q ∉ d.ignoredDst →
      ∀ x y, (x, y) ∈ getFileRenameMap cfg d → x ≠ p) ∧
    (∀ p q mp, p ≠ q → (p, mp) ∈ d.srcMeta → (q, mp) ∈ d.srcMeta →
      p ∉ d.ignoredSrc → q ∉ d.ignoredSrc →
      ∀ x y, (x, y) ∈ getFileRenameMap cfg d → y ≠ p) := by
  have hmain : ∀ x y, (x, y) ∈ getFileRenameMap cfg d →
      ∃ m : Metadata,
        valKeys (d.dstMeta.filter fun kv => !(d.ignoredDst.contains kv.1)) m = [x] ∧
        valKeys (d.srcMeta.filter fun kv => !(d.ignoredSrc.contains kv.1)) m = [y] ∧
        cfg.renameThreshold ≤ m.size := by
    intro x y hxy
    unfold getFileRenameMap at hxy
    rw [mem_stableSort] at hxy
    rcases mem_foldl_renameMapStep cfg _ x y _ _ hxy with h | ⟨m, hmem, hthr, hsrc, _⟩
    · cases h
    · refine ⟨m, ?_, ?_, hthr⟩
      · have hget := alGet_of_mem_of_nodup (reverseDict_keys_nodup _) hmem
        rw [alGet_reverseDict] at hget
        rcases hvk : valKeys (d.dstMeta.filter fun kv => !(d.ignoredDst.contains kv.1)) m
            with _ | ⟨k, _ | ⟨k2, tl⟩⟩ <;> rw [hvk] at hget
        · cases hget
        · rw [Option.some.injEq, Option.some.injEq] at hget
          rw [hget]
        · simp at hget
      · rw [alGet_reverseDict] at hsrc
        rcases hvk : valKeys (d.srcMeta.filter fun kv => !(d.ignoredSrc.contains kv.1)) m
            with _ | ⟨k, _ | ⟨k2, tl⟩⟩ <;> rw [hvk] at hsrc
        · cases hsrc
        · rw [Option.some.injEq, Option.some.injEq] at hsrc
          rw [hsrc]
        · simp at hsrc
  refine ⟨hmain, ?_, ?_⟩
  · intro p q mp hpq hpm hqm hpig hqig x y hxy hxp
    subst hxp
    obtain ⟨m, hdst, _, _⟩ := hmain x y hxy
    have hndF : ((d.dstMeta.filter fun kv => !(d.ignoredDst.contains kv.1)).map
        Prod.fst).Nodup :=
      ((List.filter_sublist _).map Prod.fst).nodup hndD
    have hpF : (x, mp) ∈ d.dstMeta.filter fun kv => !(d.ignoredDst.contains kv.1) :=
      List.mem_filter.mpr ⟨hpm, by simpa using hpig⟩
    have hqF : (q, mp) ∈ d.dstMeta.filter fun kv => !(d.ignoredDst.contains kv.1) :=
      List.mem_filter.mpr ⟨hqm, by simpa using hqig⟩
    have hxm : (x, m) ∈ d.dstMeta.filter fun kv => !(d.ignoredDst.contains kv.1) := by
      have : x ∈ valKeys (d.dstMeta.filter fun kv => !(d.ignoredDst.contains kv.1)) m := by
        rw [hdst]; exact List.mem_singleton_self x
      exact (mem_valKeys_iff _ _ _).mp this
    have hmm : mp = m := alMem_value_unique hndF hpF hxm
    subst hmm
    have hq : q ∈ valKeys (d.dstMeta.filter fun kv => !(d.ignoredDst.contains kv.1)) mp :=
      (mem_valKeys_iff _ _ _).mpr hqF
    rw [hdst, List.mem_singleton] at hq
    exact hpq hq.symm
  · intro p q mp hpq hpm hqm hpig hqig x y hxy hyp
    subst hyp
    obtain ⟨m, _, hsrc, _⟩ := hmain x y hxy
    have hndF : ((d.srcMeta.filter fun kv => !(d.ignoredSrc.contains kv.1)).map
        Prod.fst).Nodup :=
      ((List.filter_sublist _).map Prod.fst).nodup hndS
    have hpF : (y, mp) ∈ d.srcMeta.filter fun kv => !(d.ignoredSrc.contains kv.1) :=
      List.mem_filter.mpr ⟨hpm, by simpa using hpig⟩
    have hqF : (q, mp) ∈ d.srcMeta.filter fun kv => !(d.ignoredSrc.contains kv.1) :=
      List.mem_filter.mpr ⟨hqm, by simpa using hqig⟩
    have hym : (y, m) ∈ d.srcMeta.filter fun kv => !(d.ignoredSrc.contains kv.1) := by
      have : y ∈ valKeys (d.srcMeta.filter fun kv => !(d.ignoredSrc.contains kv.1)) m := by
        rw [hsrc]; exact List.mem_singleton_self y
      exact (mem_valKeys_iff _ _ _).mp this
    have hmm : mp = m := alMem_value_unique hndF hpF hym
    subst hmm
    have hq : q ∈ valKeys (d.srcMeta.filter fun kv => !(d.ignoredSrc.contains kv.1)) mp :=
      (mem_valKeys_iff _ _ _).mpr hqF
    rw [hsrc, List.mem_singleton] at hq
    exact hpq hq.symm

/-- Witness for C3: a destination pair `a`, `b` sharing a signature that a
lone source file `c` also carries. -/
theorem rename_map_requires_unique_signatures_witness :
    (∀ x y, (x, y) ∈ getFileRenameMap ⟨false, 0, true, fun _ _ => true⟩
        ⟨[(⟨["c"]⟩, ⟨1, 1⟩)], [(⟨["a"]⟩, ⟨1, 1⟩), (⟨["b"]⟩, ⟨1, 1⟩)],
          [], [], [], [], [], []⟩ →
      ∃ m : Metadata,
        valKeys ((List.filter (fun kv => !(List.contains [] kv.1))
          [(⟨["a"]⟩, (⟨1, 1⟩ : Metadata)), (⟨["b"]⟩, ⟨1, 1⟩)])) m = [x] ∧
        valKeys ((List.filter (fun kv => !(List.contains [] kv.1))
          [(⟨["c"]⟩, (⟨1, 1⟩ : Metadata))])) m = [y] ∧
        (0 : Int) ≤ m.size) ∧
    (∀ p q mp, p ≠ q →
      (p, mp) ∈ [(⟨["a"]⟩, (⟨1, 1⟩ : Metadata)), (⟨["b"]⟩, ⟨1, 1⟩)] →
      (q, mp) ∈ [(⟨["a"]⟩, (⟨1, 1⟩ : Metadata)), (⟨["b"]⟩, ⟨1, 1⟩)] →
      p ∉ ([] : List Relpath) → q ∉ ([] : List Relpath) →
      ∀ x y, (x, y) ∈ getFileRenameMap ⟨false, 0, true, fun _ _ => true⟩
        ⟨[(⟨["c"]⟩, ⟨1, 1⟩)], [(⟨["a"]⟩, ⟨1, 1⟩), (⟨["b"]⟩, ⟨1, 1⟩)],
          [], [], [], [], [], []⟩ → x ≠ p) ∧
    (∀ p q mp, p ≠ q →
      (p, mp) ∈ [(⟨["c"]⟩, (⟨1, 1⟩ : Metadata))] →
      (q, mp) ∈ [(⟨["c"]⟩, (⟨1, 1⟩ : Metadata))] →
      p ∉ ([] : List Relpath) → q ∉ ([] : List Relpath) →
      ∀ x y, (x, y) ∈ getFileRenameMap ⟨false, 0, true, fun _ _ => true⟩
        ⟨[(⟨["c"]⟩, ⟨1, 1⟩)], [(⟨["a"]⟩, ⟨1, 1⟩), (⟨["b"]⟩, ⟨1, 1⟩)],
          [], [], [], [], [], []⟩ → y ≠ p) :=
  rename_map_requires_unique_signatures ⟨false, 0, true, fun _ _ => true⟩
    ⟨[(⟨["c"]⟩, ⟨1, 1⟩)], [(⟨["a"]⟩, ⟨1, 1⟩), (⟨["b"]⟩, ⟨1, 1⟩)],
      [], [], [], [], [], []⟩ (by decide) (by decide)

/-- Once the weak state has degraded to `False` (several weak matches)
with no strong match, further weak candidates leave it there. -/
theorem resolveMatches_multi_stable (force fold : Bool) (dst : Entry) :
    ∀ (ms : List Entry) (acc : ResolveAcc),
      (∀ m ∈ ms, m.kind = dst.kind ∧ dst.name ≠ m.name ∧
        dst.normedName fold = m.normedName fold) →
      acc.weak = .multi → acc.strong = none → acc.doRejectDst = false →
      (resolveMatches force fold dst ms acc).weak = .multi ∧
      (resolveMatches force fold dst ms acc).strong = none ∧
      (resolveMatches force fold dst ms acc).doRejectDst = false := by
  intro ms
  induction ms with
  | nil => intro acc _ hw hs hr; exact ⟨hw, hs, hr⟩
  | cons m ms ih =>
    intro acc hm hw hs hr
    obtain ⟨s, w, dr, rj⟩ := acc
    simp only at hw hs hr
    subst hw; subst hs; subst hr
    obtain ⟨hk, hn, hww⟩ := hm m (List.mem_cons_self m ms)
    have hne1 : ¬(m.kind ≠ dst.kind ∧ ¬(force = true)) := fun h => h.1 hk
    unfold resolveMatches
    rw [if_neg hne1, if_neg hn, if_pos hww]
    exact ih _ (fun x hx => hm x (List.mem_cons_of_mem m hx)) rfl rfl rfl

/-- C5. For a destination entry whose candidates are all of its own kind
and all weak (case-fold-only, no byte-identical name): a single weak
candidate wins and is recorded as the match, while two or more weak
candidates reject the destination entry and every candidate as ambiguous
— both are added to the ignored sets (which bars them from rename
candidacy in `get_file_rename_map`), and no match or only-entry is
recorded. -/
theorem weak_match_resolution (force fold : Bool) (st : DirDiffState)
    (dst : Entry) :
    (∀ m : Entry, m.kind = dst.kind → dst.name ≠ m.name →
      dst.normedName fold = m.normedName fold →
      processDstEntry force fold st dst [m] =
        (if dst.kind = .dir then
          { st with dirMatches := alInsert st.dirMatches m.path dst.path }
        else
          { st with fileMatches := alInsert st.fileMatches m.path dst.path })) ∧
    (∀ (m1 m2 : Entry) (rest : List Entry),
      (∀ m ∈ m1 :: m2 :: rest, m.kind = dst.kind ∧ dst.name ≠ m.name ∧
        dst.normedName fold = m.normedName fold) →
      dst.path ∈ (processDstEntry force fold st dst (m1 :: m2 :: rest)).ignoredDst ∧
      (∀ m ∈ m1 :: m2 :: rest,
        m.path ∈ (processDstEntry force fold st dst (m1 :: m2 :: rest)).ignoredSrc) ∧
      (processDstEntry force fold st dst (m1 :: m2 :: rest)).dirMatches
        = st.dirMatches ∧
      (processDstEntry force fold st dst (m1 :: m2 :: rest)).fileMatches
        = st.fileMatches ∧
      (processDstEntry force fold st dst (m1 :: m2 :: rest)).srcOnlyDirs
        = st.srcOnlyDirs ∧
      (processDstEntry force fold st dst (m1 :: m2 :: rest)).srcOnlyFiles
        = st.srcOnlyFiles ∧
      (processDstEntry force fold st dst (m1 :: m2 :: rest)).dstOnlyDirs
        = st.dstOnlyDirs ∧
      (processDstEntry force fold st dst (m1 :: m2 :: rest)).dstOnlyFiles
        = st.dstOnlyFiles) := by
  constructor
  · intro m hk hn hw
    have hne1 : ¬(m.kind ≠ dst.kind ∧ ¬(force = true)) := fun h => h.1 hk
    have hres : resolveMatches force fold dst [m] ⟨none, .unset, false, []⟩
        = ⟨none, .one m, false, []⟩ := by
      unfold resolveMatches
      rw [if_neg hne1, if_neg hn, if_pos hw]
      rfl
    unfold processDstEntry
    rw [hres]
    cases hdk : dst.kind
    · have hmk : m.kind = .file := by rw [hk, hdk]
      simp [hmk, hdk]
    · have hmk : m.kind = .dir := by rw [hk, hdk]
      simp [hmk, hdk]
  · intro m1 m2 rest hm
    obtain ⟨hk1, hn1, hw1⟩ := hm m1 (by simp)
    obtain ⟨hk2, hn2, hw2⟩ := hm m2 (by simp)
    have hne1 : ¬(m1.kind ≠ dst.kind ∧ ¬(force = true)) := fun h => h.1 hk1
    have hne2 : ¬(m2.kind ≠ dst.kind ∧ ¬(force = true)) := fun h => h.1 hk2
    have hres2 : resolveMatches force fold dst (m1 :: m2 :: rest)
        ⟨none, .unset, false, []⟩
        = resolveMatches force fold dst rest ⟨none, .multi, false, [m2, m1]⟩ := by
      have e1 : resolveMatches force fold dst (m1 :: m2 :: rest) ⟨none, .unset, false, []⟩
          = resolveMatches force fold dst (m2 :: rest) ⟨none, .one m1, false, []⟩ := by
        conv_lhs => unfold resolveMatches
        rw [if_neg hne1, if_neg hn1, if_pos hw1]
        rfl
      have e2 : resolveMatches force fold dst (m2 :: rest) ⟨none, .one m1, false, []⟩
          = resolveMatches force fold dst rest ⟨none, .multi, false, [m2, m1]⟩ := by
        conv_lhs => unfold resolveMatches
        rw [if_neg hne2, if_neg hn2, if_pos hw2]
        rfl
      rw [e1, e2]
    obtain ⟨hwm, hsm, hrm⟩ := resolveMatches_multi_stable force fold dst rest
      ⟨none, .multi, false, [m2, m1]⟩
      (fun x hx => hm x (by simp [hx])) rfl rfl rfl
    unfold processDstEntry
    rw [hres2]
    simp only [hwm, hsm, hrm]
    simp [List.mem_map]
    intro a ha
    exact Or.inr (Or.inr (Or.inr ⟨a, ha, rfl⟩))

/-- Witness for C5: on a case-folding destination, `Foo.TXT` with the
single weak candidate `foo.txt` records the match, and `Foo.txt` with the
two weak candidates `FOO.txt`, `foo.TXT` rejects everything as
ambiguous. -/
theorem weak_match_resolution_witness :
    (processDstEntry false true ⟨[], [], [], [], [], [], [], []⟩
        ⟨.file, ⟨["Foo.TXT"]⟩⟩ [⟨.file, ⟨["foo.txt"]⟩⟩] =
      (if EKind.file = EKind.dir then
        { (⟨[], [], [], [], [], [], [], []⟩ : DirDiffState) with
          dirMatches := alInsert [] ⟨["foo.txt"]⟩ ⟨["Foo.TXT"]⟩ }
      else
        { (⟨[], [], [], [], [], [], [], []⟩ : DirDiffState) with
          fileMatches := alInsert [] ⟨["foo.txt"]⟩ ⟨["Foo.TXT"]⟩ })) ∧
    (Relpath.mk ["Foo.txt"] ∈
      (processDstEntry false true ⟨[], [], [], [], [], [], [], []⟩
        ⟨.file, ⟨["Foo.txt"]⟩⟩
        [⟨.file, ⟨["FOO.txt"]⟩⟩, ⟨.file, ⟨["foo.TXT"]⟩⟩]).ignoredDst) ∧
    (∀ m ∈ [(⟨.file, ⟨["FOO.txt"]⟩⟩ : Entry), ⟨.file, ⟨["foo.TXT"]⟩⟩],
      m.path ∈ (processDstEntry false true ⟨[], [], [], [], [], [], [], []⟩
        ⟨.file, ⟨["Foo.txt"]⟩⟩
        [⟨.file, ⟨["FOO.txt"]⟩⟩, ⟨.file, ⟨["foo.TXT"]⟩⟩]).ignoredSrc) ∧
    (processDstEntry false true ⟨[], [], [], [], [], [], [], []⟩
        ⟨.file, ⟨["Foo.txt"]⟩⟩
        [⟨.file, ⟨["FOO.txt"]⟩⟩, ⟨.file, ⟨["foo.TXT"]⟩⟩]).fileMatches = [] ∧
    (processDstEntry false true ⟨[], [], [], [], [], [], [], []⟩
        ⟨.file, ⟨["Foo.txt"]⟩⟩
        [⟨.file, ⟨["FOO.txt"]⟩⟩, ⟨.file, ⟨["foo.TXT"]⟩⟩]).dstOnlyFiles = [] := by
  have h1 := (weak_match_resolution false true ⟨[], [], [], [], [], [], [], []⟩
    ⟨.file, ⟨["Foo.TXT"]⟩⟩).1 ⟨.file, ⟨["foo.txt"]⟩⟩ (by decide) (by decide) (by decide)
  have h2 := (weak_match_resolution false true ⟨[], [], [], [], [], [], [], []⟩
    ⟨.file, ⟨["Foo.txt"]⟩⟩).2 ⟨.file, ⟨["FOO.txt"]⟩⟩ ⟨.file, ⟨["foo.TXT"]⟩⟩ []
    (by decide)
  exact ⟨h1, h2.1, h2.2.1, h2.2.2.2.1, h2.2.2.2.2.2.2.2⟩

theorem zipAllEq_comm (a b : List String) :
    Relpath.zipAllEq a b = Relpath.zipAllEq b a := by
  induction a generalizing b with
  | nil => cases b <;> rfl
  | cons x xs ih =>
    cases b with
    | nil => rfl
    | cons y ys =>
      show Relpath.zipAllEq (x :: xs) (y :: ys) = Relpath.zipAllEq (y :: ys) (x :: xs)
      simp only [Relpath.zipAllEq, List.zip_cons_cons, List.all_cons]
      have h2 : ((xs.zip ys).all fun q => q.1 == q.2)
          = ((ys.zip xs).all fun q => q.1 == q.2) := ih ys
      rw [h2]
      by_cases h : x = y
      · subst h; rfl
      · rw [beq_eq_false_iff_ne.mpr h, beq_eq_false_iff_ne.mpr (Ne.symm h)]

/-- Trace of the inner `while` loop on the two-element cycle
`{A ↦ B, B ↦ A}`: both links pass the degeneracy, blocking and
source-only tests, and the walk returns to `A`, flagging a cycle. -/
theorem buildChain_two_cycle (fold : Bool) (A B : Relpath) (st : ChainState)
    (hAB : A ≠ B)
    (hdeg : Relpath.zipAllEq (A.norm fold) (B.norm fold) = false)
    (hbB : st.dstOnlyFiles.any (fun d => Relpath.isRelativeTo fold B d) = false)
    (hbA : st.dstOnlyFiles.any (fun d => Relpath.isRelativeTo fold A d) = false)
    (hsB : st.srcOnlyFiles.contains B = false)
    (hsA : st.srcOnlyFiles.contains A = false) :
    buildChain fold [(A, B), (B, A)] st A 3 A [] [] = ([(A, B), (B, A)], true, [A, B]) := by
  have hab : (A == B) = false := beq_eq_false_iff_ne.mpr hAB
  have hba : (B == A) = false := beq_eq_false_iff_ne.mpr (Ne.symm hAB)
  have hdeg' : Relpath.zipAllEq (B.norm fold) (A.norm fold) = false := by
    rw [zipAllEq_comm]; exact hdeg
  have hsB' : B ∉ st.srcOnlyFiles := by simpa using hsB
  have hsA' : A ∉ st.srcOnlyFiles := by simpa using hsA
  simp [buildChain, alGet, alInsert, List.find?, hab, hba, hdeg, hdeg', hbA, hbB,
    hsA', hsB', hAB, Ne.symm hAB]

/-- C1, part of the claim: on a rename map that forms a two-element cycle
between destination files `A` and `B`, `get_file_rename_chains` emits
exactly the three-step chain `A → B.tempmove`, `B → A`,
`B.tempmove → B`. -/
theorem fileRenameChains_two_cycle (fold : Bool) (A B : Relpath) (st : ChainState)
    (hAB : A ≠ B)
    (hdeg : Relpath.zipAllEq (A.norm fold) (B.norm fold) = false)
    (hbB : st.dstOnlyFiles.any (fun d => Relpath.isRelativeTo fold B d) = false)
    (hbA : st.dstOnlyFiles.any (fun d => Relpath.isRelativeTo fold A d) = false)
    (hsB : st.srcOnlyFiles.contains B = false)
    (hsA : st.srcOnlyFiles.contains A = false) :
    (fileRenameChains fold [(A, B), (B, A)] st).1 =
      [(A, B.addSuffix ".tempmove"), (B, A), (B.addSuffix ".tempmove", B)] := by
  have hab : (A == B) = false := beq_eq_false_iff_ne.mpr hAB
  have hbb : (B == B) = true := beq_self_eq_true B
  have hbc := buildChain_two_cycle fold A B st hAB hdeg hbB hbA hsB hsA
  simp only [fileRenameChains, List.map, chainsLoop, List.contains_nil,
    Bool.false_eq_true, if_false, List.length_cons, List.length_nil]
  rw [show (0 + 1 + 1 + 1 : Nat) = 3 from rfl] at *
  simp [hbc, emitChain, chainsLoop, List.contains, hab, hbb]

/-- C1. For a rename map forming a cycle between two destination files `A`
and `B` (each to be renamed to the other's path), `get_file_rename_chains`
yields exactly the 3-step chain `A → B.tempmove`, `B → A`,
`B.tempmove → B`; applying these renames in order to a destination state
in which `A` and `B` are occupied and the temporary name is free succeeds
with every step moving into a free target (no overwriting), and
afterwards `A` and `B` have exchanged identities, the temporary name is
free again, and every other path is untouched (no file lost). -/
theorem cycle_rename_is_three_step_and_safe (fold : Bool) (A B : Relpath)
    (st : ChainState) (s : Relpath → Option Nat) (ia ib : Nat)
    (hAB : A ≠ B)
    (hdeg : Relpath.zipAllEq (A.norm fold) (B.norm fold) = false)
    (hbB : st.dstOnlyFiles.any (fun d => Relpath.isRelativeTo fold B d) = false)
    (hbA : st.dstOnlyFiles.any (fun d => Relpath.isRelativeTo fold A d) = false)
    (hsB : st.srcOnlyFiles.contains B = false)
    (hsA : st.srcOnlyFiles.contains A = false)
    (hA : s A = some ia) (hB : s B = some ib)
    (hT : s (B.addSuffix ".tempmove") = none) :
    (fileRenameChains fold [(A, B), (B, A)] st).1 =
      [(A, B.addSuffix ".tempmove"), (B, A), (B.addSuffix ".tempmove", B)] ∧
    ∃ s', applyRenames
        [(A, B.addSuffix ".tempmove"), (B, A), (B.addSuffix ".tempmove", B)] s
        = some s' ∧
      s' A = some ib ∧ s' B = some ia ∧ s' (B.addSuffix ".tempmove") = none ∧
      ∀ p, p ≠ A → p ≠ B → p ≠ B.addSuffix ".tempmove" → s' p = s p := by
  refine ⟨fileRenameChains_two_cycle fold A B st hAB hdeg hbB hbA hsB hsA, ?_⟩
  set T := B.addSuffix ".tempmove" with hTdef
  have hAT : A ≠ T := by
    intro h; rw [h, hT] at hA; cases hA
  have hBT : B ≠ T := by
    intro h; rw [h, hT] at hB; cases hB
  simp only [applyRenames, List.foldlM, renameIntoFree, hA, hT]
  simp only [bind, Option.bind_some]
  set s1 : Relpath → Option Nat :=
    fun p => if p = T then some ia else if p = A then none else s p with hs1
  have h1B : s1 B = some ib := by
    rw [hs1]; dsimp only; rw [if_neg hBT, if_neg (Ne.symm hAB)]; exact hB
  have h1A : s1 A = none := by
    rw [hs1]; dsimp only; rw [if_neg hAT, if_pos rfl]
  rw [Option.some_bind]
  dsimp only
  rw [h1B, h1A]
  dsimp only
  set s2 : Relpath → Option Nat :=
    fun p => if p = A then some ib else if p = B then none else s1 p with hs2
  have h2T : s2 T = some ia := by
    rw [hs2]; dsimp only
    rw [if_neg (Ne.symm hAT), if_neg (Ne.symm hBT), hs1]; dsimp only
    rw [if_pos rfl]
  have h2B : s2 B = none := by
    rw [hs2]; dsimp only; rw [if_neg (Ne.symm hAB), if_pos rfl]
  rw [Option.some_bind]
  rw [h2T, h2B]
  dsimp only
  refine ⟨_, rfl, ?_, ?_, ?_, ?_⟩
  · rw [if_neg hAB, if_neg hAT, hs2]; dsimp only; rw [if_pos rfl]
  · rw [if_pos rfl]
  · rw [if_neg (Ne.symm hBT), if_pos rfl]
  · intro p hpA hpB hpT
    rw [if_neg hpB, if_neg hpT, hs2]; dsimp only
    rw [if_neg hpA, if_neg hpB, hs1]; dsimp only
    rw [if_neg hpT, if_neg hpA]

/-- Witness for C1: the cycle theorem applied to the concrete swap of the
files `a` and `b`. -/
theorem cycle_rename_is_three_step_and_safe_witness :
    (fileRenameChains false
        [(⟨["a"]⟩, ⟨["b"]⟩), (⟨["b"]⟩, ⟨["a"]⟩)] ⟨[], [], [], []⟩).1 =
      [(⟨["a"]⟩, Relpath.addSuffix ⟨["b"]⟩ ".tempmove"),
       (⟨["b"]⟩, ⟨["a"]⟩),
       (Relpath.addSuffix ⟨["b"]⟩ ".tempmove", ⟨["b"]⟩)] ∧
    ∃ s', applyRenames
        [(⟨["a"]⟩, Relpath.addSuffix ⟨["b"]⟩ ".tempmove"),
         (⟨["b"]⟩, ⟨["a"]⟩),
         (Relpath.addSuffix ⟨["b"]⟩ ".tempmove", ⟨["b"]⟩)]
        (fun p => if p = ⟨["a"]⟩ then some 0 else if p = ⟨["b"]⟩ then some 1 else none)
        = some s' ∧
      s' ⟨["a"]⟩ = some 1 ∧ s' ⟨["b"]⟩ = some 0 ∧
      s' (Relpath.addSuffix ⟨["b"]⟩ ".tempmove") = none ∧
      ∀ p, p ≠ ⟨["a"]⟩ → p ≠ ⟨["b"]⟩ →
        p ≠ Relpath.addSuffix ⟨["b"]⟩ ".tempmove" →
        s' p = (fun p => if p = ⟨["a"]⟩ then some 0
          else if p = ⟨["b"]⟩ then some 1 else none) p :=
  cycle_rename_is_three_step_and_safe false ⟨["a"]⟩ ⟨["b"]⟩ ⟨[], [], [], []⟩
    (fun p => if p = ⟨["a"]⟩ then some 0 else if p = ⟨["b"]⟩ then some 1 else none)
    0 1 (by decide) (by decide) rfl rfl rfl rfl (by decide) (by decide) (by decide)

/-- Helper: on the two-link rename map `{A ↦ B, B ↦ C}` whose second link
is degenerate or blocked, the full pipeline emits no link at all (not
even the unobjectionable first one) and leaves every `_Diff` collection
untouched. -/
theorem two_link_chain_dropped (fold : Bool) (A B C : Relpath)
    (st : ChainState)
    (hAB : A ≠ B)
    (hdeg : Relpath.zipAllEq (A.norm fold) (B.norm fold) = false)
    (hbB : st.dstOnlyFiles.any (fun d => Relpath.isRelativeTo fold B d) = false)
    (hsB : st.srcOnlyFiles.contains B = false)
    (hdrop : Relpath.zipAllEq (B.norm fold) (C.norm fold) = true ∨
      st.dstOnlyFiles.any (fun d => Relpath.isRelativeTo fold C d) = true) :
    fileRenameChains fold [(A, B), (B, C)] st = ([], st) := by
  have hab : (A == B) = false := beq_eq_false_iff_ne.mpr hAB
  have hbb : (B == B) = true := beq_self_eq_true B
  have hsB' : B ∉ st.srcOnlyFiles := by simpa using hsB
  have hbc : buildChain fold [(A, B), (B, C)] st A 3 A [] [] = ([], false, [A, B]) := by
    rcases hdrop with hdrop | hdrop
    · simp [buildChain, alGet, alInsert, List.find?, hab, hbb, hdeg, hdrop, hbB,
        hsB', hAB, Ne.symm hAB]
    · cases hdeg2 : Relpath.zipAllEq (B.norm fold) (C.norm fold) <;>
        simp [buildChain, alGet, alInsert, List.find?, hab, hbb, hdeg, hdeg2,
          hdrop, hbB, hsB', hAB, Ne.symm hAB]
  simp only [fileRenameChains, List.map, chainsLoop, List.contains_nil,
    Bool.false_eq_true, if_false, List.length_cons, List.length_nil]
  rw [show (0 + 1 + 1 + 1 : Nat) = 3 from rfl] at *
  simp [hbc, emitChain, chainsLoop, List.contains, hab, hbb]

theorem mem_alInsert [BEq α] [LawfulBEq α] (d : List (α × β)) (k : α) (v : β)
    (l : α × β) (h : l ∈ alInsert d k v) : l ∈ d ∨ l = (k, v) := by
  unfold alInsert at h
  by_cases hany : d.any (fun kv => kv.1 == k) = true
  · rw [if_pos hany] at h
    obtain ⟨x, hx, hfx⟩ := List.mem_map.mp h
    by_cases hxk : (x.1 == k) = true
    · rw [if_pos hxk] at hfx
      right
      rw [← hfx, eq_of_beq hxk]
    · rw [if_neg hxk] at hfx
      left
      rw [← hfx]
      exact hx
  · rw [if_neg hany] at h
    rcases List.mem_append.mp h with h1 | h1
    · exact Or.inl h1
    · right
      simpa using h1

theorem buildChain_dirty_drop (fold : Bool) (rmap : List (Relpath × Relpath))
    (st : ChainState) (first : Relpath) (fuel : Nat) (cur : Relpath)
    (chain : List (Relpath × Relpath)) (handled : List Relpath) (rto : Relpath)
    (hget : alGet rmap cur = some rto)
    (hdirty : Relpath.zipAllEq (cur.norm fold) (rto.norm fold) = true ∨
      st.dstOnlyFiles.any (fun d => Relpath.isRelativeTo fold rto d) = true) :
    ∃ h2, buildChain fold rmap st first (fuel + 1) cur chain handled =
      ([], false, h2) := by
  refine ⟨if handled.contains cur then handled else handled ++ [cur], ?_⟩
  rcases hdirty with hd | hd
  · simp [buildChain, hget, hd]
  · cases hz : Relpath.zipAllEq (cur.norm fold) (rto.norm fold)
    · simp [buildChain, hget, hz, hd]
    · simp [buildChain, hget, hz]

theorem buildChain_links_clean (fold : Bool) (rmap : List (Relpath × Relpath))
    (st : ChainState) (first : Relpath) :
    ∀ (fuel : Nat) (cur : Relpath) (chain : List (Relpath × Relpath))
      (handled : List Relpath),
      (∀ l ∈ chain,
        Relpath.zipAllEq (l.1.norm fold) (l.2.norm fold) = false ∧
        st.dstOnlyFiles.any (fun d => Relpath.isRelativeTo fold l.2 d) = false) →
      ∀ l ∈ (buildChain fold rmap st first fuel cur chain handled).1,
        Relpath.zipAllEq (l.1.norm fold) (l.2.norm fold) = false ∧
        st.dstOnlyFiles.any (fun d => Relpath.isRelativeTo fold l.2 d) = false
  | 0, cur, chain, handled, hinv => by
    intro l hl
    simp [buildChain] at hl
  | fuel + 1, cur, chain, handled, hinv => by
    intro l hl
    rcases hget : alGet rmap cur with _ | rto
    · have heq : (buildChain fold rmap st first (fuel + 1) cur chain handled).1
          = [] := by
        simp [buildChain, hget]
      rw [heq] at hl
      exact absurd hl (List.not_mem_nil l)
    · by_cases hz : Relpath.zipAllEq (cur.norm fold) (rto.norm fold) = true
      · have heq : (buildChain fold rmap st first (fuel + 1) cur chain handled).1
            = [] := by
          simp [buildChain, hget, hz]
        rw [heq] at hl
        exact absurd hl (List.not_mem_nil l)
      · simp only [Bool.not_eq_true] at hz
        by_cases hb : st.dstOnlyFiles.any
            (fun d => Relpath.isRelativeTo fold rto d) = true
        · have heq : (buildChain fold rmap st first (fuel + 1) cur chain
              handled).1 = [] := by
            simp [buildChain, hget, hz, hb]
          rw [heq] at hl
          exact absurd hl (List.not_mem_nil l)
        · simp only [Bool.not_eq_true] at hb
          have hinv' : ∀ l2 ∈ alInsert chain cur rto,
              Relpath.zipAllEq (l2.1.norm fold) (l2.2.norm fold) = false ∧
              st.dstOnlyFiles.any
                (fun d => Relpath.isRelativeTo fold l2.2 d) = false := by
            intro l2 hl2
            rcases mem_alInsert chain cur rto l2 hl2 with h2 | h2
            · exact hinv l2 h2
            · rw [h2]
              exact ⟨hz, hb⟩
          by_cases hs : rto ∈ st.srcOnlyFiles
          · have heq : (buildChain fold rmap st first (fuel + 1) cur chain
                handled).1 = alInsert chain cur rto := by
              simp [buildChain, hget, hz, hb, hs]
            rw [heq] at hl
            exact hinv' l hl
          · by_cases hf : rto = first
            · subst hf
              have heq : (buildChain fold rmap st rto (fuel + 1) cur chain
                  handled).1 = alInsert chain cur rto := by
                simp [buildChain, hget, hz, hb, hs]
              rw [heq] at hl
              exact hinv' l hl
            · have heq : buildChain fold rmap st first (fuel + 1) cur chain
                  handled = buildChain fold rmap st first fuel rto
                    (alInsert chain cur rto)
                    (if handled.contains cur then handled
                      else handled ++ [cur]) := by
                simp [buildChain, hget, hz, hb, hs, hf]
              rw [heq] at hl
              exact buildChain_links_clean fold rmap st first fuel rto
                (alInsert chain cur rto) _ hinv' l hl

/-- C4: a chain under construction is dropped in its entirety as soon as
any of its links is degenerate (one path an ancestor or descendant of
the other: the two norms agree along their common prefix) or has its
rename target equal to or nested under a destination-only file still
scheduled for plain create/delete.  (i) Wherever the walk of
`get_file_rename_chains` stands and whatever it has accumulated, a
current link with either defect makes it return the empty chain;
(ii) consequently every link of every chain it does return is
non-degenerate and non-blocked; (iii) an empty chain emits no link; and
(iv) on the two-link map `{A ↦ B, B ↦ C}` whose second link is
degenerate or blocked the full pipeline emits nothing and leaves every
`_Diff` collection untouched, the files falling through to the ordinary
delete and create handling. -/
theorem blocked_or_degenerate_chain_dropped :
    (∀ (fold : Bool) (rmap : List (Relpath × Relpath)) (st : ChainState)
        (first cur : Relpath) (fuel : Nat)
        (chain : List (Relpath × Relpath)) (handled : List Relpath)
        (rto : Relpath),
      alGet rmap cur = some rto →
      (Relpath.zipAllEq (cur.norm fold) (rto.norm fold) = true ∨
        st.dstOnlyFiles.any (fun d => Relpath.isRelativeTo fold rto d) = true) →
      ∃ h2, buildChain fold rmap st first (fuel + 1) cur chain handled =
        ([], false, h2)) ∧
    (∀ (fold : Bool) (rmap : List (Relpath × Relpath)) (st : ChainState)
        (first cur : Relpath) (fuel : Nat) (handled : List Relpath),
      ∀ l ∈ (buildChain fold rmap st first fuel cur [] handled).1,
        Relpath.zipAllEq (l.1.norm fold) (l.2.norm fold) = false ∧
        st.dstOnlyFiles.any (fun d => Relpath.isRelativeTo fold l.2 d) = false) ∧
    (∀ (b : Bool), emitChain [] b = []) ∧
    (∀ (fold : Bool) (A B C : Relpath) (st : ChainState),
      A ≠ B →
      Relpath.zipAllEq (A.norm fold) (B.norm fold) = false →
      st.dstOnlyFiles.any (fun d => Relpath.isRelativeTo fold B d) = false →
      st.srcOnlyFiles.contains B = false →
      (Relpath.zipAllEq (B.norm fold) (C.norm fold) = true ∨
        st.dstOnlyFiles.any (fun d => Relpath.isRelativeTo fold C d) = true) →
      fileRenameChains fold [(A, B), (B, C)] st = ([], st)) :=
  ⟨fun fold rmap st first cur fuel chain handled rto hget hdirty =>
    buildChain_dirty_drop fold rmap st first fuel cur chain handled rto
      hget hdirty,
  fun fold rmap st first cur fuel handled =>
    buildChain_links_clean fold rmap st first fuel cur [] handled
      (fun l hl => absurd hl (List.not_mem_nil l)),
  fun _ => rfl,
  two_link_chain_dropped⟩

/-- C6. For a matched file pair, an update is emitted iff the source
mtime is strictly newer, or strictly older with `force_update` set (equal
mtimes never update); and whenever the update is emitted for a pair whose
real names differ, a rename converging the destination's on-disk name to
the source's name immediately follows it. -/
theorem update_iff_newer_with_case_rename (forceUpdate : Bool)
    (srcMeta dstMeta : List (Relpath × Metadata)) (srcE dstE : Entry)
    (ms md : Metadata)
    (hkind : dstE.kind = .file)
    (hms : alGet srcMeta srcE.path = some ms)
    (hmd : alGet dstMeta dstE.path = some md) :
    getUpdateOps forceUpdate srcMeta dstMeta srcE dstE = some
      (if md.mtime < ms.mtime ∨ (ms.mtime < md.mtime ∧ forceUpdate = true) then
        ⟨.updateFile, dstE.path, some srcE.path, none, ms.size - md.size⟩ ::
          (if srcE.path.name ≠ dstE.path.name then
            [⟨.renameFile, dstE.path, none, some srcE.path, 0⟩]
          else [])
      else []) := by
  unfold getUpdateOps
  rw [if_pos (by rw [hkind]; exact fun h => EKind.noConfusion h), hms, hmd]
  dsimp only
  rcases lt_trichotomy md.mtime ms.mtime with h | h | h
  · simp [h]
  · simp [h, lt_irrefl]
  · have h1 : ¬ md.mtime < ms.mtime := not_lt.mpr (le_of_lt h)
    cases hf : forceUpdate <;> simp [h1, h, hf]

/-- Witness for C6: source `foo.txt` newer than destination `Foo.TXT`
(a weak match) updates and then renames. -/
theorem update_iff_newer_with_case_rename_witness :
    getUpdateOps false [(⟨["foo.txt"]⟩, ⟨7, 2⟩)] [(⟨["Foo.TXT"]⟩, ⟨5, 1⟩)]
      ⟨.file, ⟨["foo.txt"]⟩⟩ ⟨.file, ⟨["Foo.TXT"]⟩⟩ = some
      (if (1 : ℚ) < 2 ∨ ((2 : ℚ) < 1 ∧ false = true) then
        ⟨.updateFile, ⟨["Foo.TXT"]⟩, some ⟨["foo.txt"]⟩, none, 7 - 5⟩ ::
          (if Relpath.name ⟨["foo.txt"]⟩ ≠ Relpath.name ⟨["Foo.TXT"]⟩ then
            [⟨.renameFile, ⟨["Foo.TXT"]⟩, none, some ⟨["foo.txt"]⟩, 0⟩]
          else [])
      else []) :=
  update_iff_newer_with_case_rename false [(⟨["foo.txt"]⟩, ⟨7, 2⟩)]
    [(⟨["Foo.TXT"]⟩, ⟨5, 1⟩)] ⟨.file, ⟨["foo.txt"]⟩⟩ ⟨.file, ⟨["Foo.TXT"]⟩⟩
    ⟨7, 2⟩ ⟨5, 1⟩ rfl (by decide) (by decide)

/-- C10. Every operation produced by the factory methods satisfies its
subclass `__post_init__` assertions: renames carry `src = None` and a
target; deletes, trashes and create-dirs carry neither; updates and
creates carry a source and no target. -/
theorem factory_ops_satisfy_invariants :
    (∀ (dstE : Entry) (target : Relpath),
      ∀ op ∈ getRenameOps dstE target, postInitOk op) ∧
    (∀ (trash : Bool) (dstMeta : List (Relpath × Metadata)) (dstE : Entry)
        (ops : List Operation), getDeleteOps trash dstMeta dstE = some ops →
      ∀ op ∈ ops, postInitOk op) ∧
    (∀ (forceUpdate : Bool) (srcMeta dstMeta : List (Relpath × Metadata))
        (srcE dstE : Entry) (ops : List Operation),
      getUpdateOps forceUpdate srcMeta dstMeta srcE dstE = some ops →
      ∀ op ∈ ops, postInitOk op) ∧
    (∀ (followSymlinks : Bool) (isSymlink : Relpath → Bool)
        (srcMeta : List (Relpath × Metadata)) (dstE : Entry)
        (ops : List Operation),
      getCreateOps followSymlinks isSymlink srcMeta dstE = some ops →
      ∀ op ∈ ops, postInitOk op) := by
  refine ⟨?_, ?_, ?_, ?_⟩
  · intro dstE target op hop
    unfold getRenameOps at hop
    by_cases h : dstE.kind ≠ .dir <;> simp [h] at hop <;> subst hop <;>
      simp [postInitOk]
  · intro trash dstMeta dstE ops hops op hop
    unfold getDeleteOps at hops
    by_cases h : dstE.kind ≠ .dir
    · rw [if_pos h] at hops
      cases trash
      · rcases hget : alGet dstMeta dstE.path with _ | md <;> rw [hget] at hops
        · cases hops
        · simp at hops; subst hops
          simp at hop; subst hop
          simp [postInitOk]
      · simp at hops; subst hops
        simp at hop; subst hop
        simp [postInitOk]
    · rw [if_neg h] at hops
      cases trash <;> simp at hops <;> subst hops <;> simp at hop <;>
        subst hop <;> simp [postInitOk]
  · intro forceUpdate srcMeta dstMeta srcE dstE ops hops op hop
    unfold getUpdateOps at hops
    by_cases h : dstE.kind ≠ .dir
    · rw [if_pos h] at hops
      rcases hs : alGet srcMeta srcE.path with _ | ms <;> rw [hs] at hops
      · cases hops
      · rcases hd : alGet dstMeta dstE.path with _ | md <;> rw [hd] at hops
        · cases hops
        · simp only [Option.some.injEq] at hops
          subst hops
          by_cases hu : (if md.mtime < ms.mtime then true
              else if ms.mtime < md.mtime then forceUpdate else false) = true
          · rw [if_pos hu] at hop
            rcases List.mem_cons.mp hop with h1 | h1
            · subst h1; simp [postInitOk]
            · by_cases hn : srcE.path.name ≠ dstE.path.name
              · rw [if_pos hn] at h1
                rw [List.mem_singleton] at h1
                subst h1; simp [postInitOk]
              · rw [if_neg hn] at h1; cases h1
          · rw [if_neg hu] at hop; cases hop
    · rw [if_neg h] at hops
      simp at hops; subst hops; cases hop
  · intro followSymlinks isSymlink srcMeta dstE ops hops op hop
    unfold getCreateOps at hops
    by_cases h : dstE.kind ≠ .dir
    · rw [if_pos h] at hops
      by_cases hsym : (!followSymlinks && isSymlink dstE.path) = true
      · rw [if_pos hsym] at hops
        simp at hops; subst hops
        simp at hop; subst hop
        simp [postInitOk]
      · rw [if_neg hsym] at hops
        rcases hget : alGet srcMeta dstE.path with _ | ms <;> rw [hget] at hops
        · cases hops
        · simp at hops; subst hops
          simp at hop; subst hop
          simp [postInitOk]
    · rw [if_neg h] at hops
      simp at hops; subst hops
      simp at hop; subst hop
      simp [postInitOk]

/-- Helper: `List.find?` returns the element at the first index whose test
holds. -/
theorem find?_eq_of_first {α : Type _} (f : α → Bool) :
    ∀ (l : List α) (i : Nat) (hi : i < l.length),
      f (l.get ⟨i, hi⟩) = true →
      (∀ j (hj : j < i), f (l.get ⟨j, Nat.lt_trans hj hi⟩) = false) →
      l.find? f = some (l.get ⟨i, hi⟩)
  | [], i, hi, _, _ => absurd hi (Nat.not_lt_zero i)
  | a :: l, 0, _, hm, _ => by
      simp only [List.get] at hm ⊢
      simp [List.find?, hm]
  | a :: l, i + 1, hi, hm, hf => by
      have ha : f a = false := hf 0 (Nat.succ_pos i)
      have hi' : i < l.length := Nat.lt_of_succ_lt_succ hi
      have hrec := find?_eq_of_first f l i hi' hm
        (fun j hj => hf (j + 1) (Nat.succ_lt_succ hj))
      simp only [List.find?, ha]
      exact hrec

/-- C2: `PathFilter.filter` returns the action of the first segment, in the
original left-to-right compile order (synthesized implicit ancestor-include
rules included), whose matcher matches the path, and the configured default
when no segment matches; in particular the pattern string
`"+ a/*.txt - a/**"` compiles to the explicit include for `a/*.txt`, the
implicit include for `a/` and the reject for `a/**`, so it includes
`a/x.txt` and excludes `a/b/x.txt`. -/
theorem filter_first_match_decides :
    (∀ (segs : List Segment) (dflt : Bool) (p : String) (i : Nat)
        (hi : i < segs.length),
      globMatch (segs.get ⟨i, hi⟩).globPattern p.data = true →
      (∀ j (hj : j < i),
        globMatch (segs.get ⟨j, Nat.lt_trans hj hi⟩).globPattern p.data = false) →
      pathFilterEval segs dflt p = (segs.get ⟨i, hi⟩).action) ∧
    (∀ (segs : List Segment) (dflt : Bool) (p : String),
      (∀ sg ∈ segs, globMatch sg.globPattern p.data = false) →
      pathFilterEval segs dflt p = dflt) ∧
    pathFilter "+ a/*.txt - a/**" =
      some [⟨['a', '/', '*', '.', 't', 'x', 't'], true, false, false⟩,
            ⟨['a', '/'], true, false, true⟩,
            ⟨['a', '/', '*', '*'], false, false, false⟩] ∧
    (pathFilter "+ a/*.txt - a/**").map
      (fun segs => pathFilterEval segs false "a/x.txt") = some true ∧
    (pathFilter "+ a/*.txt - a/**").map
      (fun segs => pathFilterEval segs false "a/b/x.txt") = some false := by
  refine ⟨?_, ?_, by decide, by decide, by decide⟩
  · intro segs dflt p i hi hm hf
    unfold pathFilterEval
    rw [find?_eq_of_first _ segs i hi hm hf]
  · intro segs dflt p hnone
    have h : segs.find? (fun sg => globMatch sg.globPattern p.data) = none :=
      List.find?_eq_none.mpr (fun sg hsg => by simp [hnone sg hsg])
    unfold pathFilterEval
    rw [h]

theorem relLoop_break_at_reject (isDir : Option Bool) (sg : Segment)
    (ps2 : List Segment) (r : Segment) (hr : r.action = false) :
    ∀ (ps1 : List Segment) (handled : Bool) (ta : List (List Char)),
      relLoop isDir sg (ps1 ++ r :: ps2) handled ta =
        relLoop isDir sg ps1 handled ta
  | [], handled, ta => by
    simp only [List.nil_append, relLoop, hr, Bool.not_false, if_true]
  | q :: ps1, handled, ta => by
    simp only [List.cons_append, relLoop, List.append_eq]
    by_cases hqa : q.action = true
    · simp only [hqa, Bool.not_true, Bool.false_eq_true, if_false]
      by_cases hqc : (!q.isImplicit && q.globPattern.getLast? = some '/') = true
      · rw [if_pos hqc, if_pos hqc]
        split
        · rfl
        · exact relLoop_break_at_reject isDir sg ps2 r hr ps1 true ta
        · rename_i sgq heq
          by_cases hqrel : sgq.isRelative = true
          · rw [if_pos hqrel, if_pos hqrel]
          · rw [if_neg hqrel, if_neg hqrel]
            rw [relLoop_break_at_reject isDir sg ps2 r hr ps1 true _]
      · rw [if_neg hqc, if_neg hqc]
        exact relLoop_break_at_reject isDir sg ps2 r hr ps1 handled ta
    · simp only [Bool.not_eq_true] at hqa
      simp only [hqa, Bool.not_false, if_true]

theorem relLoop_rooted (isDir : Option Bool) (sg : Segment) :
    ∀ (ps : List Segment) (ta : List (List Char)),
      (∀ p ∈ ps, p.action = true ∧
        (p.isImplicit = true ∨ ¬p.globPattern.getLast? = some '/')) →
      relLoop isDir sg ps false ta =
        some ([{ sg with isImplicit := true }], ta ++ [sg.globPattern])
  | [], ta, _ => rfl
  | q :: ps, ta, h => by
    obtain ⟨hqa, hq2⟩ := h q (List.mem_cons_self q ps)
    have hqc : (!q.isImplicit && q.globPattern.getLast? = some '/') = false := by
      rcases hq2 with h2 | h2
      · simp [h2]
      · simp [h2]
    simp only [relLoop, hqa, Bool.not_true, Bool.false_eq_true, if_false, hqc]
    exact relLoop_rooted isDir sg ps ta
      (fun p hp => h p (List.mem_cons_of_mem q hp))

theorem mem_expandAbsolute (sg : Segment) (pattern : List Char)
    (ta : List (List Char)) : sg ∈ (expandAbsolute sg pattern ta).1 := by
  unfold expandAbsolute
  by_cases h : sg.action = true
  · simp [h]
  · simp [h]

theorem relLoop_attaches (isDir : Option Bool) (sg : Segment)
    (ps2 : List Segment) (p sg2 : Segment)
    (hpa : p.action = true) (hpi : p.isImplicit = false)
    (hpd : p.globPattern.getLast? = some '/')
    (hpar : parsePattern true (p.globPattern ++ sg.globPattern) isDir =
      some (some sg2))
    (hrel : sg2.isRelative = false) :
    ∀ (ps1 : List Segment) (handled : Bool) (ta : List (List Char))
      (out : List Segment) (ta2 : List (List Char)),
      (∀ q ∈ ps1, q.action = true) →
      relLoop isDir sg (ps1 ++ p :: ps2) handled ta = some (out, ta2) →
      { sg2 with isImplicit := true } ∈ out
  | [], handled, ta, out, ta2, _, h => by
    have hcond : (!p.isImplicit && p.globPattern.getLast? = some '/') = true := by
      simp [hpi, hpd]
    rw [List.nil_append] at h
    simp only [relLoop] at h
    rw [if_neg (by simp [hpa]), if_pos hcond, hpar] at h
    dsimp only at h
    rw [if_neg (by simp [hrel])] at h
    rcases hrec : relLoop isDir sg ps2 true
        ((expandAbsolute { sg2 with isImplicit := true }
          (p.globPattern ++ sg.globPattern) ta).2) with _ | r2
    · rw [hrec] at h
      simp at h
    · rw [hrec] at h
      dsimp only at h
      have h2 := Option.some_inj.mp h
      simp only [Prod.mk.injEq] at h2
      obtain ⟨hout, -⟩ := h2
      rw [← hout]
      exact List.mem_append_left _ (List.mem_map.mpr
        ⟨{ sg2 with isImplicit := true }, mem_expandAbsolute _ _ _, rfl⟩)
  | q :: ps1, handled, ta, out, ta2, hps1, h => by
    have hqa : q.action = true := hps1 q (List.mem_cons_self q ps1)
    have hps1' : ∀ q2 ∈ ps1, q2.action = true :=
      fun q2 hq2 => hps1 q2 (List.mem_cons_of_mem q hq2)
    rw [List.cons_append] at h
    simp only [relLoop, List.append_eq] at h
    rw [if_neg (by simp [hqa])] at h
    by_cases hqc : (!q.isImplicit && q.globPattern.getLast? = some '/') = true
    · rw [if_pos hqc] at h
      rcases hpq : parsePattern true (q.globPattern ++ sg.globPattern) isDir
        with _ | _ | sgq
      · rw [hpq] at h
        simp at h
      · rw [hpq] at h
        dsimp only at h
        exact relLoop_attaches isDir sg ps2 p sg2 hpa hpi hpd hpar hrel
          ps1 true ta out ta2 hps1' h
      · rw [hpq] at h
        dsimp only at h
        by_cases hqrel : sgq.isRelative = true
        · rw [if_pos hqrel] at h
          simp at h
        · rw [if_neg hqrel] at h
          rcases hrec : relLoop isDir sg (ps1 ++ p :: ps2) true
              ((expandAbsolute { sgq with isImplicit := true }
                (q.globPattern ++ sg.globPattern) ta).2) with _ | r2
          · rw [hrec] at h
            simp at h
          · rw [hrec] at h
            dsimp only at h
            have h2 := Option.some_inj.mp h
            simp only [Prod.mk.injEq] at h2
            obtain ⟨hout, -⟩ := h2
            rw [← hout]
            exact List.mem_append_right _
              (relLoop_attaches isDir sg ps2 p sg2 hpa hpi hpd hpar hrel
                ps1 true _ r2.1 r2.2 hps1' hrec)
    · rw [if_neg hqc] at h
      exact relLoop_attaches isDir sg ps2 p sg2 hpa hpi hpd hpar hrel
        ps1 handled ta out ta2 hps1' h

/-- C9: a relative (`./`) pattern in an include group is concatenated
onto every non-implicit include-directory rule in the trailing run of
include segments — the compiled segments are walked newest-first and the
walk stops at the first reject segment, which bounds the run — and is
kept rooted when that run has no such rule.  In order: (i) segments
older than the nearest reject segment are never consulted; (ii) every
non-implicit include-directory rule in the run, at any depth, receives
the concatenated pattern in the output; (iii) a run with no such rule
yields exactly the rooted implicit segment; and concretely,
`"a/ b/ ./1"` compiles rules `b/1` and `a/1` (so both `a/1` and `b/1`
are included) while the spec-side most-recent-only model compiles only
`b/1` and rejects `a/1`; `"x/ - y + a/ b/ ./1"` attaches to `b/` and
`a/` but not to `x/` beyond the reject boundary; and a bare `"./1"` is
kept rooted. -/
theorem relative_pattern_attaches_to_every_trailing_include_dir :
    (∀ (isDir : Option Bool) (sg : Segment) (ps1 ps2 : List Segment)
        (r : Segment) (handled : Bool) (ta : List (List Char)),
      r.action = false →
      relLoop isDir sg (ps1 ++ r :: ps2) handled ta =
        relLoop isDir sg ps1 handled ta) ∧
    (∀ (isDir : Option Bool) (sg : Segment) (ps1 ps2 : List Segment)
        (p sg2 : Segment) (handled : Bool) (ta : List (List Char))
        (out : List Segment) (ta2 : List (List Char)),
      (∀ q ∈ ps1, q.action = true) →
      p.action = true → p.isImplicit = false →
      p.globPattern.getLast? = some '/' →
      parsePattern true (p.globPattern ++ sg.globPattern) isDir =
        some (some sg2) →
      sg2.isRelative = false →
      relLoop isDir sg (ps1 ++ p :: ps2) handled ta = some (out, ta2) →
      { sg2 with isImplicit := true } ∈ out) ∧
    (∀ (isDir : Option Bool) (sg : Segment) (ps : List Segment)
        (ta : List (List Char)),
      (∀ p ∈ ps, p.action = true ∧
        (p.isImplicit = true ∨ ¬p.globPattern.getLast? = some '/')) →
      relLoop isDir sg ps false ta =
        some ([{ sg with isImplicit := true }], ta ++ [sg.globPattern])) ∧
    pathFilter "a/ b/ ./1" =
      some [⟨['a', '/'], true, false, false⟩,
            ⟨['b', '/'], true, false, false⟩,
            ⟨['b', '/', '1'], true, false, true⟩,
            ⟨['a', '/', '1'], true, false, true⟩] ∧
    specPathFilter "a/ b/ ./1" =
      some [⟨['a', '/'], true, false, false⟩,
            ⟨['b', '/'], true, false, false⟩,
            ⟨['b', '/', '1'], true, false, true⟩] ∧
    (pathFilter "a/ b/ ./1").map
      (fun segs => pathFilterEval segs false "a/1") = some true ∧
    (pathFilter "a/ b/ ./1").map
      (fun segs => pathFilterEval segs false "b/1") = some true ∧
    (specPathFilter "a/ b/ ./1").map
      (fun segs => pathFilterEval segs false "a/1") = some false ∧
    pathFilter "x/ - y + a/ b/ ./1" =
      some [⟨['x', '/'], true, false, false⟩,
            ⟨['y'], false, false, false⟩,
            ⟨['a', '/'], true, false, false⟩,
            ⟨['b', '/'], true, false, false⟩,
            ⟨['b', '/', '1'], true, false, true⟩,
            ⟨['a', '/', '1'], true, false, true⟩] ∧
    (pathFilter "x/ - y + a/ b/ ./1").map
      (fun segs => pathFilterEval segs false "a/1") = some true ∧
    (pathFilter "x/ - y + a/ b/ ./1").map
      (fun segs => pathFilterEval segs false "b/1") = some true ∧
    (pathFilter "x/ - y + a/ b/ ./1").map
      (fun segs => pathFilterEval segs false "x/1") = some false ∧
    pathFilter "./1" = some [⟨['1'], true, true, true⟩] ∧
    (pathFilter "./1").map
      (fun segs => pathFilterEval segs false "1") = some true ∧
    (pathFilter "./1").map
      (fun segs => pathFilterEval segs false "a/1") = some false :=
  ⟨fun isDir sg ps1 ps2 r handled ta hr =>
    relLoop_break_at_reject isDir sg ps2 r hr ps1 handled ta,
  fun isDir sg ps1 ps2 p sg2 handled ta out ta2 h1 h2 h3 h4 h5 h6 h7 =>
    relLoop_attaches isDir sg ps2 p sg2 h2 h3 h4 h5 h6 ps1 handled ta
      out ta2 h1 h7,
  fun isDir sg ps ta h => relLoop_rooted isDir sg ps ta h,
  by decide, by decide, by decide, by decide, by decide, by decide,
  by decide, by decide, by decide, by decide, by decide, by decide⟩

/-- C9, counterexample to the most-recent-only reading: the compiled filter
for `"a/ b/ ./1"` includes `a/1`, while the filter compiled by the spec-side
model (the relative pattern attached only to the most recent non-implicit
include-directory rule) rejects it. -/
theorem relative_pattern_most_recent_only_cex :
    (pathFilter "a/ b/ ./1").map
      (fun segs => pathFilterEval segs false "a/1") = some true ∧
    (specPathFilter "a/ b/ ./1").map
      (fun segs => pathFilterEval segs false "a/1") = some false :=
  ⟨by decide, by decide⟩

/-- Witness for C10: the four factory methods on concrete inputs. -/
theorem factory_ops_satisfy_invariants_witness :
    (∀ op ∈ getRenameOps ⟨.file, ⟨["a"]⟩⟩ ⟨["b"]⟩, postInitOk op) ∧
    (∀ op ∈ [(⟨.deleteFile, ⟨["a"]⟩, none, none, -5⟩ : Operation)], postInitOk op) ∧
    (∀ op ∈ [(⟨.updateFile, ⟨["A"]⟩, some ⟨["a"]⟩, none, 0⟩ : Operation),
      ⟨.renameFile, ⟨["A"]⟩, none, some ⟨["a"]⟩, 0⟩], postInitOk op) ∧
    (∀ op ∈ [(⟨.createFile, ⟨["c"]⟩, some ⟨["c"]⟩, none, 5⟩ : Operation)], postInitOk op) := by
  refine ⟨factory_ops_satisfy_invariants.1 ⟨.file, ⟨["a"]⟩⟩ ⟨["b"]⟩, ?_, ?_, ?_⟩
  · exact factory_ops_satisfy_invariants.2.1 false [(⟨["a"]⟩, ⟨5, 1⟩)]
      ⟨.file, ⟨["a"]⟩⟩ _ (by decide)
  · exact factory_ops_satisfy_invariants.2.2.1 false [(⟨["a"]⟩, ⟨5, 2⟩)]
      [(⟨["A"]⟩, ⟨5, 1⟩)] ⟨.file, ⟨["a"]⟩⟩ ⟨.file, ⟨["A"]⟩⟩ _ (by decide)
  · exact factory_ops_satisfy_invariants.2.2.2 false (fun _ => false)
      [(⟨["c"]⟩, ⟨5, 1⟩)] ⟨.file, ⟨["c"]⟩⟩ _ (by decide)

theorem mem_strSetInsert (l : List String) (q p : String) :
    p ∈ strSetInsert l q ↔ p ∈ l ∨ p = q := by
  unfold strSetInsert
  by_cases h : l.contains q
  · rw [if_pos h]
    constructor
    · exact fun hp => Or.inl hp
    · rintro (hp | rfl)
      · exact hp
      · simpa using h
  · rw [if_neg h]
    simp [List.mem_append]

theorem mem_foldl_strSetInsert (c : ScanCategory) :
    ∀ (l : List ScandirEntry) (s0 : List String) (p : String),
      p ∈ l.foldl
        (fun s e => if e.category = c then strSetInsert s e.normpath else s) s0 ↔
      p ∈ s0 ∨ ∃ e ∈ l, e.category = c ∧ e.normpath = p
  | [], s0, p => by simp
  | e :: l, s0, p => by
    rw [List.foldl_cons, mem_foldl_strSetInsert c l _ p]
    by_cases h : e.category = c
    · rw [if_pos h, mem_strSetInsert]
      constructor
      · rintro ((hp | rfl) | hex)
        · exact Or.inl hp
        · exact Or.inr ⟨e, List.mem_cons_self e l, h, rfl⟩
        · obtain ⟨e2, he2, hc, hn⟩ := hex
          exact Or.inr ⟨e2, List.mem_cons_of_mem e he2, hc, hn⟩
      · rintro (hp | ⟨e2, he2, hc, hn⟩)
        · exact Or.inl (Or.inl hp)
        · rcases List.mem_cons.mp he2 with rfl | he2'
          · exact Or.inl (Or.inr hn.symm)
          · exact Or.inr ⟨e2, he2', hc, hn⟩
    · rw [if_neg h]
      constructor
      · rintro (hp | hex)
        · exact Or.inl hp
        · obtain ⟨e2, he2, hc, hn⟩ := hex
          exact Or.inr ⟨e2, List.mem_cons_of_mem e he2, hc, hn⟩
      · rintro (hp | ⟨e2, he2, hc, hn⟩)
        · exact Or.inl hp
        · rcases List.mem_cons.mp he2 with rfl | he2'
          · exact absurd hc h
          · exact Or.inr ⟨e2, he2', hc, hn⟩

theorem alGet_map_update_self [BEq α] [LawfulBEq α] (k : α) (v : β) :
    ∀ (d : List (α × β)), d.any (fun kv => kv.1 == k) = true →
      alGet (d.map fun kv => if (kv.1 == k) = true then (kv.1, v) else kv) k =
        some v
  | [], h => by simp at h
  | kv :: d, h => by
    by_cases hk : (kv.1 == k) = true
    · simp only [List.map_cons, if_pos hk]
      rw [alGet_cons]
      simp [hk]
    · simp only [List.map_cons, if_neg hk]
      rw [alGet_cons, if_neg (by simpa using hk)]
      apply alGet_map_update_self k v d
      rcases List.any_eq_true.mp h with ⟨x, hx, hxk⟩
      rcases List.mem_cons.mp hx with rfl | hx'
      · exact absurd hxk hk
      · exact List.any_eq_true.mpr ⟨x, hx', hxk⟩

theorem alGet_append_single_self [BEq α] [LawfulBEq α] (k : α) (v : β) :
    ∀ (d : List (α × β)), d.any (fun kv => kv.1 == k) = false →
      alGet (d ++ [(k, v)]) k = some v
  | [], _ => by simp [alGet, List.find?]
  | kv :: d, h => by
    rw [List.any_cons] at h
    have h1 : (kv.1 == k) = false := by
      cases hkk : (kv.1 == k)
      · rfl
      · rw [hkk] at h
        simp at h
    have h2 : d.any (fun kv => kv.1 == k) = false := by
      cases hd : d.any (fun kv => kv.1 == k)
      · rfl
      · rw [hd] at h
        simp at h
    rw [List.cons_append, alGet_cons, if_neg (by simp [h1])]
    exact alGet_append_single_self k v d h2

theorem alGet_map_update_other [BEq α] [LawfulBEq α] (k p : α) (v : β)
    (hne : (k == p) = false) :
    ∀ (d : List (α × β)),
      alGet (d.map fun kv => if (kv.1 == k) = true then (kv.1, v) else kv) p =
        alGet d p
  | [] => rfl
  | kv :: d => by
    simp only [List.map_cons]
    by_cases hk : (kv.1 == k) = true
    · have hkp : (kv.1 == p) = false := by
        cases hp : (kv.1 == p)
        · rfl
        · exact absurd (show k = p by rw [← eq_of_beq hk]; exact eq_of_beq hp)
            (by simpa using hne)
      rw [if_pos hk, alGet_cons, alGet_cons, if_neg (by simp [hkp]),
        if_neg (by simp [hkp])]
      exact alGet_map_update_other k p v hne d
    · rw [if_neg hk, alGet_cons, alGet_cons]
      by_cases hp : (kv.1 == p) = true
      · rw [if_pos hp, if_pos hp]
      · rw [if_neg hp, if_neg hp]
        exact alGet_map_update_other k p v hne d

theorem alGet_append_single_other [BEq α] [LawfulBEq α] (k p : α) (v : β)
    (hne : (k == p) = false) :
    ∀ (d : List (α × β)), alGet (d ++ [(k, v)]) p = alGet d p
  | [] => by
    simp only [List.nil_append]
    rw [alGet_cons, if_neg (by simp [hne])]
  | kv :: d => by
    rw [List.cons_append, alGet_cons, alGet_cons]
    by_cases hp : (kv.1 == p) = true
    · rw [if_pos hp, if_pos hp]
    · rw [if_neg hp, if_neg hp]
      exact alGet_append_single_other k p v hne d

theorem alGet_alInsert_self [BEq α] [LawfulBEq α] (d : List (α × β)) (k : α)
    (v : β) : alGet (alInsert d k v) k = some v := by
  unfold alInsert
  by_cases h : d.any (fun kv => kv.1 == k) = true
  · rw [if_pos h]
    exact alGet_map_update_self k v d h
  · rw [if_neg h]
    refine alGet_append_single_self k v d ?_
    cases hv : d.any (fun kv => kv.1 == k)
    · rfl
    · exact absurd hv h

theorem alGet_alInsert_other [BEq α] [LawfulBEq α] (d : List (α × β)) (k p : α)
    (v : β) (hne : ¬k = p) : alGet (alInsert d k v) p = alGet d p := by
  have hb : (k == p) = false := by simp [hne]
  unfold alInsert
  by_cases h : d.any (fun kv => kv.1 == k) = true
  · rw [if_pos h]
    exact alGet_map_update_other k p v hb d
  · rw [if_neg h]
    exact alGet_append_single_other k p v hb d

theorem alGet_foldl_alInsert {β : Type _} (key : ScandirEntry → String)
    (f : ScandirEntry → β) :
    ∀ (l : List ScandirEntry) (d0 : List (String × β)) (p : String) (m : β),
      alGet (l.foldl (fun d e => alInsert d (key e) (f e)) d0) p = some m →
      (∃ e ∈ l, key e = p ∧ f e = m) ∨ alGet d0 p = some m
  | [], _, _, _, h => Or.inr h
  | e :: l, d0, p, m, h => by
    rw [List.foldl_cons] at h
    rcases alGet_foldl_alInsert key f l _ p m h with hex | hbase
    · obtain ⟨e2, he2, hk, hf⟩ := hex
      exact Or.inl ⟨e2, List.mem_cons_of_mem e he2, hk, hf⟩
    · by_cases hk : key e = p
      · subst hk
        rw [alGet_alInsert_self] at hbase
        exact Or.inl ⟨e, List.mem_cons_self e l, rfl, Option.some_inj.mp hbase⟩
      · rw [alGet_alInsert_other _ _ _ _ hk] at hbase
        exact Or.inr hbase

theorem alGet_foldl_alInsert_isSome {β : Type _} (key : ScandirEntry → String)
    (f : ScandirEntry → β) :
    ∀ (l : List ScandirEntry) (d0 : List (String × β)) (p : String),
      ((∃ e ∈ l, key e = p) ∨ (alGet d0 p).isSome = true) →
      (alGet (l.foldl (fun d e => alInsert d (key e) (f e)) d0) p).isSome = true
  | [], _, _, h => by
    rcases h with ⟨e, he, _⟩ | hs
    · exact absurd he (List.not_mem_nil e)
    · exact hs
  | e :: l, d0, p, h => by
    rw [List.foldl_cons]
    apply alGet_foldl_alInsert_isSome key f l
    rcases h with ⟨e2, he2, hk⟩ | hs
    · rcases List.mem_cons.mp he2 with rfl | he2'
      · right
        subst hk
        rw [alGet_alInsert_self]
        rfl
      · exact Or.inl ⟨e2, he2', hk⟩
    · right
      by_cases hk : key e = p
      · subst hk
        rw [alGet_alInsert_self]
        rfl
      · rw [alGet_alInsert_other _ _ _ _ hk]
        exact hs

theorem mem_scanFileSet (l : List ScandirEntry) (p : String) :
    p ∈ scanFileSet l ↔
      ∃ e ∈ l, e.category = ScanCategory.file ∧ e.normpath = p := by
  unfold scanFileSet
  rw [mem_foldl_strSetInsert]
  simp

theorem mem_scanEmptySet (l : List ScandirEntry) (p : String) :
    p ∈ scanEmptySet l ↔
      ∃ e ∈ l, e.category = ScanCategory.emptyDir ∧ e.normpath = p := by
  unfold scanEmptySet
  rw [mem_foldl_strSetInsert]
  simp

theorem alGet_scanMeta_some (l : List ScandirEntry) (p : String) (m : Metadata)
    (h : alGet (scanMeta l) p = some m) :
    ∃ e ∈ l, e.normpath = p ∧ e.meta = m := by
  rcases alGet_foldl_alInsert (fun e => e.normpath) (fun e => e.meta) l [] p m h
    with hex | hbase
  · exact hex
  · simp [alGet, List.find?] at hbase

theorem alGet_scanMeta_isSome (l : List ScandirEntry) (p : String)
    (h : ∃ e ∈ l, e.normpath = p) : (alGet (scanMeta l) p).isSome = true :=
  alGet_foldl_alInsert_isSome (fun e => e.normpath) (fun e => e.meta) l [] p
    (Or.inl h)

theorem stableSort_nil (le : α → α → Bool) : stableSort le [] = [] := rfl

/-- C7: a second run over unchanged trees produces zero operations —
when the two filtered scans agree (every file normpath of one side is a
file normpath of the other, every empty-directory normpath likewise,
and any two entries sharing a normpath carry equal mtimes, which is the
state after a successful run with create, update and delete enabled and
no intervening change), `_operations` yields nothing, whatever the
delete/trash/force-update/rename-threshold settings. -/
theorem second_run_zero_ops (srcRoot dstRoot : String)
    (srcFiles dstFiles : List ScandirEntry) (trashRoot : Option String)
    (deleteFiles forceUpdate metadataOnly : Bool)
    (renameThreshold : Option Int) (lastEq : String → String → Bool)
    (hf1 : ∀ e ∈ srcFiles, e.category = ScanCategory.file →
      ∃ e2 ∈ dstFiles, e2.category = ScanCategory.file ∧
        e2.normpath = e.normpath)
    (hf2 : ∀ e ∈ dstFiles, e.category = ScanCategory.file →
      ∃ e2 ∈ srcFiles, e2.category = ScanCategory.file ∧
        e2.normpath = e.normpath)
    (hd1 : ∀ e ∈ srcFiles, e.category = ScanCategory.emptyDir →
      ∃ e2 ∈ dstFiles, e2.category = ScanCategory.emptyDir ∧
        e2.normpath = e.normpath)
    (hd2 : ∀ e ∈ dstFiles, e.category = ScanCategory.emptyDir →
      ∃ e2 ∈ srcFiles, e2.category = ScanCategory.emptyDir ∧
        e2.normpath = e.normpath)
    (hmt : ∀ es ∈ srcFiles, ∀ ed ∈ dstFiles, es.normpath = ed.normpath →
      es.meta.mtime = ed.meta.mtime) :
    flatOperations srcRoot dstRoot srcFiles dstFiles trashRoot deleteFiles
      forceUpdate metadataOnly renameThreshold lastEq = [] := by
  have hA : (scanFileSet srcFiles).filter
      (fun p => !(scanFileSet dstFiles).contains p) = [] := by
    rw [List.filter_eq_nil]
    intro p hp
    obtain ⟨e, he, hc, hn⟩ := (mem_scanFileSet srcFiles p).mp hp
    obtain ⟨e2, he2, hc2, hn2⟩ := hf1 e he hc
    have : p ∈ scanFileSet dstFiles :=
      (mem_scanFileSet dstFiles p).mpr ⟨e2, he2, hc2, hn2.trans hn⟩
    simp [this]
  have hB : (scanFileSet dstFiles).filter
      (fun p => !(scanFileSet srcFiles).contains p) = [] := by
    rw [List.filter_eq_nil]
    intro p hp
    obtain ⟨e, he, hc, hn⟩ := (mem_scanFileSet dstFiles p).mp hp
    obtain ⟨e2, he2, hc2, hn2⟩ := hf2 e he hc
    have : p ∈ scanFileSet srcFiles :=
      (mem_scanFileSet srcFiles p).mpr ⟨e2, he2, hc2, hn2.trans hn⟩
    simp [this]
  have hC : (scanEmptySet dstFiles).filter
      (fun p => !(scanEmptySet srcFiles).contains p) = [] := by
    rw [List.filter_eq_nil]
    intro p hp
    obtain ⟨e, he, hc, hn⟩ := (mem_scanEmptySet dstFiles p).mp hp
    obtain ⟨e2, he2, hc2, hn2⟩ := hd2 e he hc
    have : p ∈ scanEmptySet srcFiles :=
      (mem_scanEmptySet srcFiles p).mpr ⟨e2, he2, hc2, hn2.trans hn⟩
    simp [this]
  have hD : (scanEmptySet srcFiles).filter
      (fun p => !(scanEmptySet dstFiles).contains p) = [] := by
    rw [List.filter_eq_nil]
    intro p hp
    obtain ⟨e, he, hc, hn⟩ := (mem_scanEmptySet srcFiles p).mp hp
    obtain ⟨e2, he2, hc2, hn2⟩ := hd1 e he hc
    have : p ∈ scanEmptySet dstFiles :=
      (mem_scanEmptySet dstFiles p).mpr ⟨e2, he2, hc2, hn2.trans hn⟩
    simp [this]
  have hU : ∀ rp ∈ stableSort strLe ((scanFileSet srcFiles).filter
        (fun p => (scanFileSet dstFiles).contains p)),
      flatUpdateOp srcRoot dstRoot (scanNames srcFiles) (scanNames dstFiles)
        (scanMeta srcFiles) (scanMeta dstFiles) forceUpdate rp = none := by
    intro rp hrp
    rw [mem_stableSort, List.mem_filter] at hrp
    obtain ⟨hsr, hdrb⟩ := hrp
    obtain ⟨es, hes, _, hesn⟩ := (mem_scanFileSet srcFiles rp).mp hsr
    have hdr : rp ∈ scanFileSet dstFiles := by simpa using hdrb
    obtain ⟨ed, hed, _, hedn⟩ := (mem_scanFileSet dstFiles rp).mp hdr
    obtain ⟨ms, hms⟩ := Option.isSome_iff_exists.mp
      (alGet_scanMeta_isSome srcFiles rp ⟨es, hes, hesn⟩)
    obtain ⟨md, hmd⟩ := Option.isSome_iff_exists.mp
      (alGet_scanMeta_isSome dstFiles rp ⟨ed, hed, hedn⟩)
    obtain ⟨es2, hes2, hesn2, hmse⟩ := alGet_scanMeta_some srcFiles rp ms hms
    obtain ⟨ed2, hed2, hedn2, hmde⟩ := alGet_scanMeta_some dstFiles rp md hmd
    have heq : ms.mtime = md.mtime := by
      have h := hmt es2 hes2 ed2 hed2 (by rw [hesn2, hedn2])
      rw [hmse, hmde] at h
      exact h
    unfold flatUpdateOp
    rw [hms, hmd]
    simp only [Option.getD_some]
    rw [heq]
    simp [lt_irrefl]
  unfold flatOperations
  simp only [hA, hB, hC, hD, stableSort_nil, List.map_nil]
  rw [List.filterMap_eq_nil.mpr hU]
  cases renameThreshold <;> cases deleteFiles <;> cases trashRoot <;> simp

/-- Witness for C7: agreeing two-entry scans whose real names differ in
case. -/
theorem second_run_zero_ops_witness :
    flatOperations "s" "d"
      [⟨ScanCategory.file, "a", "a", ⟨1, 0⟩⟩,
       ⟨ScanCategory.emptyDir, "e", "e", ⟨0, -1⟩⟩]
      [⟨ScanCategory.file, "a", "A", ⟨1, 0⟩⟩,
       ⟨ScanCategory.emptyDir, "e", "e", ⟨0, -1⟩⟩]
      none true false true (some 1) (fun _ _ => true) = [] :=
  second_run_zero_ops _ _ _ _ _ _ _ _ _ _ (by decide) (by decide) (by decide)
    (by decide) (by decide)

theorem execRun_some (lim : Nat) : ∀ (outcomes : List Bool) (acc : Nat),
    (acc + (outcomes.filter (fun b => !b)).length < lim →
      execRun (some lim) outcomes acc =
        ⟨acc + (outcomes.filter (fun b => !b)).length, RunStatus.completed⟩) ∧
    (acc < lim → lim ≤ acc + (outcomes.filter (fun b => !b)).length →
      execRun (some lim) outcomes acc = ⟨lim, RunStatus.errorLimitReached⟩)
  | [], acc => by
    constructor
    · intro _
      simp [execRun]
    · intro h1 h2
      simp at h2
      omega
  | ok :: rest, acc => by
    cases ok
    · have hcnt : ((false :: rest).filter (fun b => !b)).length =
          (rest.filter (fun b => !b)).length + 1 := by
        simp [List.filter]
      constructor
      · intro hlt
        rw [hcnt] at hlt
        have hnot : ¬lim ≤ acc + 1 := by omega
        show (if lim ≤ acc + 1 then _ else execRun (some lim) rest (acc + 1)) = _
        rw [if_neg hnot]
        have := (execRun_some lim rest (acc + 1)).1 (by omega)
        rw [this]
        congr 1
        rw [hcnt]
        omega
      · intro h1 h2
        rw [hcnt] at h2
        show (if lim ≤ acc + 1 then (⟨acc + 1, RunStatus.errorLimitReached⟩ : RunResults)
          else execRun (some lim) rest (acc + 1)) = _
        by_cases hle : lim ≤ acc + 1
        · rw [if_pos hle]
          have : lim = acc + 1 := by omega
          rw [this]
        · rw [if_neg hle]
          exact (execRun_some lim rest (acc + 1)).2 (by omega) (by omega)
    · have hcnt : ((true :: rest).filter (fun b => !b)).length =
          (rest.filter (fun b => !b)).length := by
        simp [List.filter]
      constructor
      · intro hlt
        rw [hcnt] at hlt ⊢
        show execRun (some lim) rest acc = _
        exact (execRun_some lim rest acc).1 hlt
      · intro h1 h2
        rw [hcnt] at h2
        show execRun (some lim) rest acc = _
        exact (execRun_some lim rest acc).2 h1 h2

theorem execRun_none : ∀ (outcomes : List Bool) (acc : Nat),
    execRun none outcomes acc =
      ⟨acc + (outcomes.filter (fun b => !b)).length, RunStatus.completed⟩
  | [], acc => by simp [execRun]
  | ok :: rest, acc => by
    cases ok
    · show execRun none rest (acc + 1) = _
      rw [execRun_none rest (acc + 1)]
      congr 1
      simp [List.filter]
      omega
    · show execRun none rest acc = _
      rw [execRun_none rest acc]
      have hcnt : ((true :: rest).filter (fun b => !b)).length =
          (rest.filter (fun b => !b)).length := by
        simp [List.filter]
      rw [hcnt]

/-- C8: the executor enforces the configured error-count limit — with
fewer recoverable failures than the limit the run completes carrying
the failure tally; once the tally reaches the limit the run terminates
with status `ErrorLimitReached` (a failure below the limit is tallied
and the run continues to the next operation); and with no configured
limit the run always completes. -/
theorem executor_error_limit (lim : Nat) (outcomes : List Bool) :
    ((outcomes.filter (fun b => !b)).length < lim →
      execRun (some lim) outcomes 0 =
        ⟨(outcomes.filter (fun b => !b)).length, RunStatus.completed⟩) ∧
    (1 ≤ lim → lim ≤ (outcomes.filter (fun b => !b)).length →
      execRun (some lim) outcomes 0 = ⟨lim, RunStatus.errorLimitReached⟩) ∧
    execRun none outcomes 0 =
      ⟨(outcomes.filter (fun b => !b)).length, RunStatus.completed⟩ ∧
    (∀ (rest : List Bool) (fails : Nat), fails + 1 < lim →
      execRun (some lim) (false :: rest) fails =
        execRun (some lim) rest (fails + 1)) ∧
    (∀ (rest : List Bool) (fails : Nat), lim ≤ fails + 1 →
      execRun (some lim) (false :: rest) fails =
        ⟨fails + 1, RunStatus.errorLimitReached⟩) := by
  refine ⟨?_, ?_, ?_, ?_, ?_⟩
  · intro h
    have h2 := (execRun_some lim outcomes 0).1 (by omega)
    simpa using h2
  · intro h1 h2
    exact (execRun_some lim outcomes 0).2 (by omega) (by omega)
  · have h2 := execRun_none outcomes 0
    simpa using h2
  · intro rest fails h
    show (if lim ≤ fails + 1 then _ else execRun (some lim) rest (fails + 1)) = _
    rw [if_neg (by omega)]
  · intro rest fails h
    show (if lim ≤ fails + 1 then (⟨fails + 1, RunStatus.errorLimitReached⟩ : RunResults)
      else execRun (some lim) rest (fails + 1)) = _
    rw [if_pos h]

end Psync
